import Mathlib

/-!
# unbound-blacklist: the hosts-file parser and the Unbound emitter

A shallow embedding of `pkg/generator/parse.go` and `pkg/generator/output_unbound.go`.

* Go strings are modelled by `String` (sequences of Unicode code points, i.e. the
  valid UTF-8 strings); byte offsets of the source become positions in `String.data`.
* The `hosts` map (`map[string]struct{}`) is a duplicate-free `List String`; the
  iteration order of a Go map is unspecified, and `Parse` sorts the keys before use.
* The standard-library routines the program calls (`unicode.IsSpace`,
  `strings.TrimLeftFunc`, `strings.FieldsFunc`, `net.ParseIP`, ...) are modelled after
  the Go standard library.  The Unicode case table for runes outside ASCII, the URI
  parser, the file system and the network are parameters.
-/

namespace Generator

/-! ## Runes and strings -/

/-- Go `unicode.IsSpace`: the Latin-1 white space characters, and the `White_Space`
property beyond Latin-1. -/
def IsSpace (c : Char) : Bool :=
  let n := c.toNat
  if n ≤ 0xFF then
    n == 0x09 || n == 0x0A || n == 0x0B || n == 0x0C || n == 0x0D || n == 0x20 ||
      n == 0x85 || n == 0xA0
  else
    n == 0x1680 || (0x2000 ≤ n && n ≤ 0x200A) || n == 0x2028 || n == 0x2029 ||
      n == 0x202F || n == 0x205F || n == 0x3000

/-- Go `unicode.ToLower` on one rune.  ASCII letters are handled as in the source
(`c += 'a' - 'A'`); `U` is the Unicode case table for the runes from U+0080 on. -/
def toLowerRune (U : Char → Char) (c : Char) : Char :=
  if c.toNat < 128 then
    if 65 ≤ c.toNat ∧ c.toNat ≤ 90 then Char.ofNat (c.toNat + 32) else c
  else U c

/-- Go `strings.ToLower`. -/
def ToLower (U : Char → Char) (s : String) : String :=
  ⟨s.data.map (toLowerRune U)⟩

/-- Go `strings.TrimLeftFunc(s, unicode.IsSpace)`. -/
def TrimLeftSpace (s : String) : String :=
  ⟨s.data.dropWhile IsSpace⟩

/-- Go `strings.HasPrefix(s, p)`. -/
def HasPrefix (s p : String) : Bool :=
  p.data.isPrefixOf s.data

/-- Position of the first occurrence of `r`, as `strings.IndexRune` (`none` is `-1`). -/
def indexRuneAux (r : Char) : List Char → Nat → Option Nat
  | [], _ => none
  | c :: cs, i => if c = r then some i else indexRuneAux r cs (i + 1)

/-- Go `strings.IndexRune(s, r)`. -/
def IndexRune (s : String) (r : Char) : Option Nat :=
  indexRuneAux r s.data 0

/-- The scan of `strings.FieldsFunc`: `cur` is the field being read. -/
def fieldsAux (f : Char → Bool) : List Char → List Char → List String
  | [], cur => if cur = [] then [] else [⟨cur⟩]
  | c :: cs, cur =>
    if f c then
      if cur = [] then fieldsAux f cs [] else ⟨cur⟩ :: fieldsAux f cs []
    else fieldsAux f cs (cur ++ [c])

/-- Go `strings.FieldsFunc(s, unicode.IsSpace)`. -/
def Fields (s : String) : List String :=
  fieldsAux IsSpace s.data []

/-! ## `net.ParseIP` -/

/-- An IP address as `net.ParseIP` returns it: 16 bytes. -/
abbrev IP := List Nat

/-- Value of a decimal digit (`s[i] >= '0' && s[i] <= '9'`). -/
def decVal (c : Char) : Option Nat :=
  if 48 ≤ c.toNat ∧ c.toNat ≤ 57 then some (c.toNat - 48) else none

/-- Value of a hexadecimal digit in either case. -/
def hexVal (c : Char) : Option Nat :=
  if 48 ≤ c.toNat ∧ c.toNat ≤ 57 then some (c.toNat - 48)
  else if 97 ≤ c.toNat ∧ c.toNat ≤ 102 then some (c.toNat - 97 + 10)
  else if 65 ≤ c.toNat ∧ c.toNat ≤ 70 then some (c.toNat - 65 + 10)
  else none

/-- The loop of `netip.parseIPv4Fields`.  `atStart` is `i == 0`, `prevDot` is
`s[i-1] == '.'`, `fields` holds the octets stored so far. -/
def parseIPv4Fields : List Char → (val pos digLen : Nat) → (atStart prevDot : Bool) →
    (fields : List Nat) → Option (List Nat)
  | [], val, pos, _, _, _, fields => if pos < 3 then none else some (fields ++ [val])
  | c :: rest, val, pos, digLen, atStart, prevDot, fields =>
    match decVal c with
    | some d =>
      if digLen = 1 ∧ val = 0 then none
      else if val * 10 + d > 255 then none
      else parseIPv4Fields rest (val * 10 + d) pos (digLen + 1) false false fields
    | none =>
      if c = '.' then
        if atStart ∨ rest = [] ∨ prevDot then none
        else if pos = 3 then none
        else parseIPv4Fields rest 0 (pos + 1) 0 false true (fields ++ [val])
      else none

/-- The address `a.b.c.d` in 16-byte form (`net.IPv4`). -/
def IPv4 (a b c d : Nat) : IP := [0, 0, 0, 0, 0, 0, 0, 0, 0, 0, 0xff, 0xff, a, b, c, d]

/-- The 16-byte form of four octets (`netip.AddrFrom4` followed by `As16`). -/
def from4 (f : List Nat) : IP := [0, 0, 0, 0, 0, 0, 0, 0, 0, 0, 0xff, 0xff] ++ f

/-- Dotted-decimal IPv4 (`netip.parseIPv4`). -/
def parseIPv4 (s : List Char) : Option IP :=
  (parseIPv4Fields s 0 0 0 true false []).map from4

/-- The hexadecimal group scan at the head of the `parseIPv6` loop: the number of
digits read, their value and the rest of the text; `none` when the group has more
than four digits or overflows 16 bits. -/
def scanHex : List Char → (off acc : Nat) → Option (Nat × Nat × List Char)
  | [], off, acc => some (off, acc, [])
  | c :: cs, off, acc =>
    match hexVal c with
    | none => some (off, acc, c :: cs)
    | some v =>
      if off > 3 then none
      else if acc * 16 + v > 0xFFFF then none
      else scanHex cs (off + 1) (acc * 16 + v)

/-- The main loop of `netip.parseIPv6` (`for i < 16`).  `ip` holds the `i` bytes
written so far, `ell` is the position of the ellipsis (`none` is `-1`), and `k` is
the number of iterations left before `i` reaches 16 (every iteration that does not
leave the loop adds 2 to `i`).  The result is the state on leaving the loop. -/
def v6loop : Nat → List Char → List Nat → Option Nat →
    Option (List Char × List Nat × Option Nat)
  | 0, s, ip, ell => some (s, ip, ell)
  | k + 1, s, ip, ell =>
    match scanHex s 0 0 with
    | none => none
    | some (off, acc, rest) =>
      if off = 0 then none
      else
        match rest with
        | [] => some ([], ip ++ [acc / 256, acc % 256], ell)
        | c :: rest1 =>
          if c = '.' then
            if ell = none ∧ ip.length ≠ 12 then none
            else if ip.length + 4 > 16 then none
            else
              match parseIPv4Fields s 0 0 0 true false [] with
              | none => none
              | some f => some ([], ip ++ f, ell)
          else if c = ':' then
            match rest1 with
            | [] => none
            | c2 :: rest2 =>
              if c2 = ':' then
                if ell.isSome then none
                else if rest2 = [] then
                  some ([], ip ++ [acc / 256, acc % 256], some (ip.length + 2))
                else v6loop k rest2 (ip ++ [acc / 256, acc % 256]) (some (ip.length + 2))
              else v6loop k rest1 (ip ++ [acc / 256, acc % 256]) ell
          else none

/-- The end of `netip.parseIPv6`: the whole text must be used, and the ellipsis is
expanded to the missing zero bytes. -/
def v6finish : List Char × List Nat × Option Nat → Option IP
  | (s, ip, ell) =>
    if s ≠ [] then none
    else if ip.length < 16 then
      match ell with
      | none => none
      | some e => some (ip.take e ++ List.replicate (16 - ip.length) 0 ++ ip.drop e)
    else if ell.isSome then none
    else some ip

/-- Split at the first `%` (`s, zone = s[:i], s[i+1:]`); `none` when there is none. -/
def splitZone : List Char → Option (List Char × List Char)
  | [] => none
  | c :: cs =>
    if c = '%' then some ([], cs)
    else (splitZone cs).map (fun p => (c :: p.1, p.2))

/-- The body of `netip.parseIPv6` once the zone is split off. -/
def parseIPv6Body (s : List Char) : Option IP :=
  match s with
  | c1 :: c2 :: rest =>
    if c1 = ':' ∧ c2 = ':' then
      if rest = [] then some (List.replicate 16 0)
      else (v6loop 8 rest [] (some 0)).bind v6finish
    else (v6loop 8 s [] none).bind v6finish
  | _ => (v6loop 8 s [] none).bind v6finish

/-- Go `netip.parseIPv6`: the address and its zone. -/
def parseIPv6 (inp : List Char) : Option (IP × List Char) :=
  match splitZone inp with
  | some (s, zone) =>
    if zone = [] then none else (parseIPv6Body s).map (fun ip => (ip, zone))
  | none => (parseIPv6Body inp).map (fun ip => (ip, []))

/-- The dispatch loop of `netip.ParseAddr` over the bytes of `whole`. -/
def parseAddrAux (whole : List Char) : List Char → Option (IP × List Char)
  | [] => none
  | c :: rest =>
    if c = '.' then (parseIPv4 whole).map (fun ip => (ip, []))
    else if c = ':' then parseIPv6 whole
    else if c = '%' then none
    else parseAddrAux whole rest

/-- Go `net.ParseIP`: `netip.ParseAddr`, refusing an address with a zone; `none` is
the nil IP. -/
def ParseIP (s : String) : Option IP :=
  match parseAddrAux s.data s.data with
  | some (ip, zone) => if zone = [] then some ip else none
  | none => none

/-- Go `net.IPv4zero`. -/
def IPv4zero : IP := IPv4 0 0 0 0

/-- Go `net.IPv6unspecified`. -/
def IPv6unspecified : IP := List.replicate 16 0

/-- Go `net.IPv6loopback`. -/
def IPv6loopback : IP := [0, 0, 0, 0, 0, 0, 0, 0, 0, 0, 0, 0, 0, 0, 0, 1]

/-- Go `IP.To4` on a 16-byte address: the last four bytes of an IPv4-mapped address. -/
def To4 (ip : IP) : Option (List Nat) :=
  if ip.length = 16 ∧ ip.take 10 = List.replicate 10 0 ∧ ip.drop 10 = 0xff :: 0xff :: ip.drop 12
  then some (ip.drop 12) else none

/-- Go `IP.IsUnspecified`: `ip.Equal(IPv4zero) || ip.Equal(IPv6unspecified)`; on
16-byte addresses `Equal` compares the bytes. -/
def IsUnspecified (ip : IP) : Bool :=
  ip = IPv4zero || ip = IPv6unspecified

/-- Go `IP.IsLoopback`. -/
def IsLoopback (ip : IP) : Bool :=
  match To4 ip with
  | some ip4 => ip4.head? = some 127
  | none => ip = IPv6loopback

/-! ## Errors and the line scanner -/

/-- The errors of a run.  `unrecognizedFormat line` is
`fmt.Errorf("unrecognized format of line: %q", line)`; the others come from the
scanner, the operating system and the network. -/
inductive Error where
  | unrecognizedFormat (line : String)
  | tooLong
  | permission (path : String)
  | exist (path : String)
  | notExist (path : String)
  | isDirectory (path : String)
  | failure (what : String)
  deriving DecidableEq, Repr

/-- Go `os.IsPermission`. -/
def IsPermission : Option Error → Bool
  | some (.permission _) => true
  | _ => false

/-- Go `os.IsExist`: true for an "already exists" error only; false for `nil`. -/
def IsExist : Option Error → Bool
  | some (.exist _) => true
  | _ => false

/-- What a `bufio.Scanner` with the default line splitter shows of its reader:
`tokens` lists, for every call of `Scan()` that returned true, `s.Text()` and the
value of `s.Err()` at that moment; `err` is `s.Err()` once `Scan()` has returned
false. -/
structure ScanRun where
  tokens : List (String × Option Error)
  err : Option Error

/-- The keys of the `hosts` map. -/
abbrev Hosts := List String

/-- The statement `hosts[k] = struct{}{}`. -/
def Hosts.put (hosts : Hosts) (k : String) : Hosts :=
  if k ∈ hosts then hosts else hosts ++ [k]

/-- The line `line[:trim]` when `trim := strings.IndexRune(line, '#'); trim > 0`. -/
def cutComment (line : String) : String :=
  match IndexRune line '#' with
  | some trim => if trim > 0 then ⟨line.data.take trim⟩ else line
  | none => line

/-- The body of the `for s.Scan()` loop of `parse` below the scanner check, on the
text of one line: the host set to continue with, or the error `parse` returns. -/
def parseLine (U : Char → Char) (text : String) (hosts : Hosts) : Except Error Hosts :=
  let line := TrimLeftSpace text
  if HasPrefix line "#" || line.data.length == 0 then .ok hosts
  else
    let line := cutComment line
    match Fields line with
    | [f0] =>
      if ParseIP f0 = none then .ok (hosts.put (ToLower U f0)) else .ok hosts
    | [f0, f1] =>
      match ParseIP f0 with
      | none =>
        if f1 = "localhost" || HasPrefix f1 "localhost." then .ok hosts
        else .error (.unrecognizedFormat line)
      | some addr =>
        if IsUnspecified addr ||
            (IsLoopback addr && !(HasPrefix f1 "localhost" || HasPrefix f1 "localhost.")) then
          if ParseIP f1 = none then .ok (hosts.put (ToLower U f1)) else .ok hosts
        else .ok hosts
    | _ => .error (.unrecognizedFormat line)

/-- The loop `for s.Scan() { if s.Err() != nil { return s.Err() } ... }`. -/
def parseLoop (U : Char → Char) : List (String × Option Error) → Hosts → Option Error × Hosts
  | [], hosts => (none, hosts)
  | (text, serr) :: rest, hosts =>
    match serr with
    | some e => (some e, hosts)
    | none =>
      match parseLine U text hosts with
      | .error e => (some e, hosts)
      | .ok hosts1 => parseLoop U rest hosts1

/-- Go `parse(r, hosts)`: the error returned and the host map afterwards.  When the
loop ends the function returns nil; `r.err` is not read. -/
def parse (U : Char → Char) (r : ScanRun) (hosts : Hosts) : Option Error × Hosts :=
  parseLoop U r.tokens hosts

/-! ## Sources -/

/-- The part of `url.URL` the program reads. -/
structure URL where
  scheme : String
  raw : String

/-- Go `URL.IsAbs`. -/
def URL.IsAbs (u : URL) : Bool := u.scheme != ""

/-- The world outside the program and the library tables it is not given with:
the Unicode case table, `url.ParseRequestURI`, `filepath.Clean`, the outcome of
`os.Open` and of the HTTP request (an error, or the stream as the scanner shows
it), and standard input. -/
structure Env where
  lower : Char → Char
  parseRequestURI : String → Except Error URL
  clean : String → String
  osOpen : String → Except Error ScanRun
  clientDo : URL → Except Error ScanRun
  stdin : ScanRun

/-- Go `parseLocalSource(filename, hosts, parse)`. -/
def parseLocalSource (env : Env) (filename : String) (hosts : Hosts) : Option Error × Hosts :=
  match env.osOpen (env.clean filename) with
  | .error e => (some e, hosts)
  | .ok file => parse env.lower file hosts

/-- Go `parseRemoteSource(loc, hosts, parse)`. -/
def parseRemoteSource (env : Env) (loc : URL) (hosts : Hosts) : Option Error × Hosts :=
  match env.clientDo loc with
  | .error e => (some e, hosts)
  | .ok body => parse env.lower body hosts

/-- The body of the loop `for _, filename := range source` of `Parse`: a source
that parses as an absolute URI is fetched, a source the URI parser rejects is opened
as a file, and for a source that parses without a scheme neither branch runs. -/
def parseSource (env : Env) (filename : String) (hosts : Hosts) : Option Error × Hosts :=
  match env.parseRequestURI filename with
  | .ok loc =>
    if loc.IsAbs then parseRemoteSource env loc hosts
    else (none, hosts)
  | .error _ => parseLocalSource env filename hosts

/-- The loop `for _, filename := range source` of `Parse`. -/
def parseSources (env : Env) : List String → Hosts → Option Error × Hosts
  | [], hosts => (none, hosts)
  | filename :: rest, hosts =>
    match parseSource env filename hosts with
    | (some e, hosts1) => (some e, hosts1)
    | (none, hosts1) => parseSources env rest hosts1

/-- Lexicographic comparison of code sequences. -/
def lexLE : List Nat → List Nat → Bool
  | [], _ => true
  | _ :: _, [] => false
  | a :: as, b :: bs => a < b || (a == b && lexLE as bs)

/-- The order of `sort.Strings`.  Go compares strings byte by byte; on UTF-8 text
this is the lexicographic order of the code points. -/
def strLE (a b : String) : Prop :=
  lexLE (a.data.map Char.toNat) (b.data.map Char.toNat) = true

instance : DecidableRel strLE := fun a b =>
  inferInstanceAs (Decidable (lexLE (a.data.map Char.toNat) (b.data.map Char.toNat) = true))

/-- Go `sort.Strings`. -/
def sortStrings (names : List String) : List String :=
  names.insertionSort strLE

/-- The first part of `Parse`: reading the sources into the host map. -/
def readSources (env : Env) (source : List String) : Option Error × Hosts :=
  if (source.length = 1 ∧ source.head? = some "-") ∨ source.length = 0 then
    parse env.lower env.stdin []
  else parseSources env source []

/-- Go `Parse(blacklistWriter, source...)`: the error that aborts the run before
the writer is called, or the result of `blacklistWriter.Write` on the sorted keys. -/
def Parse {α : Type} (env : Env) (write : List String → α) (source : List String) :
    Except Error α :=
  match readSources env source with
  | (some e, _) => .error e
  | (none, hosts) => .ok (write (sortStrings hosts))

/-! ## The Unbound writer -/

/-- Go `os.FileInfo`, as far as the program reads it. -/
structure FileInfo where
  isDir : Bool

/-- The file system as `Write` sees it: the two results `(fi, err)` of `os.Stat`,
the error of `os.OpenFile(name, O_CREATE|O_TRUNC|O_WRONLY, 0640)` if any, and
`path.Join`. -/
structure OS where
  stat : String → Option FileInfo × Option Error
  openFile : String → Option Error
  join : String → String → String

/-- Where the text goes. -/
inductive Sink where
  | stdout
  | file (path : String)
  deriving DecidableEq, Repr

/-- How `Write` ends: it returns an error, it dereferences a nil `fi`, or it returns
nil after sending `text` to `sink`. -/
inductive WriteOutcome where
  | failed (e : Error)
  | nilDeref
  | wrote (sink : Sink) (text : String)
  deriving DecidableEq, Repr

/-- One formatted line: `fmt.Fprintf(w, "local-zone: %s. always_nxdomain\n", host)`. -/
def zoneLine (host : String) : String :=
  "local-zone: " ++ host ++ ". always_nxdomain\n"

/-- The text written by the loop over `hosts`. -/
def render (hosts : List String) : String :=
  String.join (hosts.map zoneLine)

/-- The path `Write` opens, from the results `(fi, err)` of `os.Stat(b.output)` when
`err` is not a permission error: `path.Join(b.output, "blacklist.conf")` when
`os.IsExist(err) && fi.IsDir()`, and `b.output` otherwise.  `none` stands for the call
of `fi.IsDir()` on a nil `fi`. -/
def target (os : OS) (output : String) (fi : Option FileInfo) (err : Option Error) :
    Option String :=
  if IsExist err then
    match fi with
    | none => none
    | some fi => if fi.isDir then some (os.join output "blacklist.conf") else some output
  else some output

/-- Go `BlacklistWriterUnbound.Write`.  Writes to the opened sink succeed. -/
def Write (os : OS) (output : String) (hosts : List String) : WriteOutcome :=
  if output.data.length = 0 then .wrote .stdout (render hosts)
  else
    match os.stat output with
    | (fi, err) =>
      match err, IsPermission err with
      | some e, true => .failed e
      | _, _ =>
        match target os output fi err with
        | none => .nilDeref
        | some p =>
          match os.openFile p with
          | some e => .failed e
          | none => .wrote (.file p) (render hosts)

/-! ## Predicates of the statements -/

/-- A rune map that leaves unchanged everything `net.ParseIP` looks at. -/
def KeepsIP (L : Char → Char) : Prop :=
  ∀ c, hexVal (L c) = hexVal c ∧ decVal (L c) = decVal c ∧
    (L c = '.' ↔ c = '.') ∧ (L c = ':' ↔ c = ':') ∧ (L c = '%' ↔ c = '%')

/-- The assumption on the Unicode case table: no rune outside ASCII is lowered to a
character that can occur in an IP literal (a hexadecimal digit, `.`, `:` or `%`). -/
def CaseTableOK (U : Char → Char) : Prop :=
  ∀ c : Char, 128 ≤ c.toNat →
    hexVal (U c) = none ∧ U c ≠ '.' ∧ U c ≠ ':' ∧ U c ≠ '%'

/-- The test `strings.HasPrefix(line, "#") || len(line) == 0` of `parse` on the text of a
scanned line: the line is passed over. -/
def skipped (text : String) : Bool :=
  HasPrefix (TrimLeftSpace text) "#" || (TrimLeftSpace text).data.length == 0

/-- The `fields` of a line that is not passed over. -/
def lineFields (text : String) : List String :=
  Fields (cutComment (TrimLeftSpace text))

/-- The test of line 135 of `parse.go`: `localhost`, or a name starting with
`localhost.`. -/
def isLocalhostName (h : String) : Bool :=
  h = "localhost" || HasPrefix h "localhost."

/-- Where a host added by one line comes from. -/
def AddedBy (U : Char → Char) (text : String) (x : String) : Prop :=
  skipped text = false ∧ ∃ f, x = ToLower U f ∧ ParseIP f = none ∧
    (lineFields text = [f] ∨
      ∃ a addr, lineFields text = [a, f] ∧ ParseIP a = some addr ∧
        (IsUnspecified addr = true ∨
          (IsLoopback addr = true ∧ HasPrefix f "localhost" = false)))

/-- The hosts one line adds to the map (none when the line is refused). -/
def added (U : Char → Char) (text : String) : Hosts :=
  match parseLine U text [] with
  | .ok l => l
  | .error _ => []

/-- The error `parse` returns at one line, if any. -/
def lineError (U : Char → Char) (text : String) : Option Error :=
  match parseLine U text [] with
  | .ok _ => none
  | .error e => some e

/-- A scanned line that lets `parse` go on: the scanner reports no error with it and
the line is not refused. -/
def TokenOK (U : Char → Char) (t : String × Option Error) : Prop :=
  t.2 = none ∧ lineError U t.1 = none

/-- The strict order of `sort.Strings`. -/
def strLT (a b : String) : Prop := strLE a b ∧ a ≠ b

/-- The outcome of opening or fetching a source, as a stream to read. -/
def opened : Except Error ScanRun → Except Error (Option ScanRun)
  | .error e => .error e
  | .ok r => .ok (some r)

/-- What `Parse` reads for one configured source: the error of opening or fetching
it, nothing at all (`none`), or the stream as the scanner shows it. -/
def sourceStream (env : Env) (filename : String) : Except Error (Option ScanRun) :=
  match env.parseRequestURI filename with
  | .ok loc => if loc.IsAbs then opened (env.clientDo loc) else .ok none
  | .error _ => opened (env.osOpen (env.clean filename))

/-- The condition under which `Parse` reads standard input. -/
def usesStdin (source : List String) : Prop :=
  (source.length = 1 ∧ source.head? = some "-") ∨ source.length = 0

instance (source : List String) : Decidable (usesStdin source) := by
  unfold usesStdin; infer_instance

/-- The streams of a run, in the order `Parse` reads them. -/
def streams (env : Env) (source : List String) : List (Except Error (Option ScanRun)) :=
  if usesStdin source then [.ok (some env.stdin)] else source.map (sourceStream env)

/-- Reading a list of streams into the host map, as `Parse` does. -/
def readStreams (U : Char → Char) :
    List (Except Error (Option ScanRun)) → Hosts → Option Error × Hosts
  | [], hosts => (none, hosts)
  | .error e :: _, hosts => (some e, hosts)
  | .ok none :: rest, hosts => readStreams U rest hosts
  | .ok (some r) :: rest, hosts =>
    match parse U r hosts with
    | (some e, hosts1) => (some e, hosts1)
    | (none, hosts1) => readStreams U rest hosts1

/-- A stream that lets the run go on. -/
def StreamOK (U : Char → Char) : Except Error (Option ScanRun) → Prop
  | .error _ => False
  | .ok none => True
  | .ok (some r) => ∀ t ∈ r.tokens, TokenOK U t

/-- The host `x` is added by a line of the stream. -/
def StreamAdds (U : Char → Char) (st : Except Error (Option ScanRun)) (x : String) : Prop :=
  ∃ r, st = .ok (some r) ∧ ∃ t ∈ r.tokens, x ∈ added U t.1

instance (U : Char → Char) (t : String × Option Error) : Decidable (TokenOK U t) := by
  unfold TokenOK; infer_instance

/-- A sample world.  The URI parser answers as `url.ParseRequestURI` does on these
strings: `/etc/hosts` parses, without a scheme; `http://example.org/hosts` parses
with the scheme `http`; a relative path such as `hosts.txt` is rejected ("invalid
URI for request").  The files `/etc/hosts` and `hosts.txt` hold the line
`0.0.0.0 ads.net`; standard input holds the five lines of the end-to-end example of
the specification. -/
def sampleEnv : Env where
  lower := id
  parseRequestURI := fun s =>
    if s = "/etc/hosts" then .ok ⟨"", s⟩
    else if s = "http://example.org/hosts" then .ok ⟨"http", s⟩
    else .error (.failure "invalid URI for request")
  clean := id
  osOpen := fun p =>
    if p = "/etc/hosts" ∨ p = "hosts.txt" then .ok ⟨[("0.0.0.0 ads.net", none)], none⟩
    else if p = "more.txt" then
      .ok ⟨[("Example.COM", none), ("127.0.0.1 tracker.example", none)], none⟩
    else .error (.notExist p)
  clientDo := fun _ => .error (.failure "no route to host")
  stdin := ⟨[("# comment", none), ("", none), ("EXAMPLE.COM", none),
    ("0.0.0.0 ads.net", none), ("127.0.0.1 localhost", none)], none⟩

/-- The sample world with a standard input that delivers the line `0.0.0.0 ads.net`
and then fails: `Scan()` returns true once, then false, and `Err()` is the read
error from then on. -/
def brokenStdinEnv : Env :=
  { sampleEnv with
    stdin := ⟨[("0.0.0.0 ads.net", none)], some (.failure "read: connection reset by peer")⟩ }

/-- A sample file system: `/tmp` is an existing directory (opening it for writing
fails), every other path can be created. -/
def sampleOS : OS where
  stat := fun p => if p = "/tmp" then (some ⟨true⟩, none) else (none, some (.notExist p))
  openFile := fun p => if p = "/tmp" then some (.isDirectory p) else none
  join := fun a b => a ++ "/" ++ b

/-- Two outcomes of opening a source in which the scanner delivers the same lines, in
possibly different order.  This relates what the scanner delivers, not the contents
of the sources: a line the scanner cannot deliver ends the delivery (see `scan`). -/
def SameLines : Except Error ScanRun → Except Error ScanRun → Prop
  | .error e, .error e1 => e = e1
  | .ok r, .ok r1 => r.tokens.Perm r1.tokens
  | _, _ => False

/-- Two worlds in which the scanner delivers, for each source, the same lines in
possibly different order. -/
def Reordered (env env1 : Env) : Prop :=
  env1.lower = env.lower ∧ env1.parseRequestURI = env.parseRequestURI ∧
  env1.clean = env.clean ∧
  (∀ p, SameLines (env.osOpen p) (env1.osOpen p)) ∧
  (∀ u, SameLines (env.clientDo u) (env1.clientDo u)) ∧
  env.stdin.tokens.Perm env1.stdin.tokens

/-- The sample world with the lines of `more.txt` in the other order. -/
def reorderedEnv : Env :=
  { sampleEnv with
    osOpen := fun p =>
      if p = "more.txt" then
        .ok ⟨[("127.0.0.1 tracker.example", none), ("Example.COM", none)], none⟩
      else sampleEnv.osOpen p }

/-- Go `bufio.MaxScanTokenSize`: the size limit of the buffer of a `bufio.Scanner`. -/
def MaxScanTokenSize : Nat := 64 * 1024

/-- Number of bytes of a text in UTF-8. -/
def byteLen (cs : List Char) : Nat :=
  (cs.map Char.utf8Size).sum

/-- The helper `dropCR` of `bufio.ScanLines`: a trailing carriage return is dropped. -/
def dropCR (cs : List Char) : List Char :=
  if cs.getLast? = some '\r' then cs.dropLast else cs

/-- A `bufio.Scanner` with `bufio.ScanLines` over a stream that is read to its end
without I/O error: `cur` is the line being buffered.  Every line ended by a newline,
and a non-empty last line without one, is a token.  A line of `MaxScanTokenSize` bytes
or more fills the buffer before its end is seen: `Scan()` returns false from then on
and `Err()` is `bufio.ErrTooLong`. -/
def scanAux : List Char → List Char → List (String × Option Error) × Option Error
  | [], cur =>
    if cur = [] then ([], none)
    else if MaxScanTokenSize ≤ byteLen cur then ([], some .tooLong)
    else ([(⟨dropCR cur⟩, none)], none)
  | c :: cs, cur =>
    if c = '\n' then
      if MaxScanTokenSize ≤ byteLen cur then ([], some .tooLong)
      else ((⟨dropCR cur⟩, none) :: (scanAux cs []).1, (scanAux cs []).2)
    else scanAux cs (cur ++ [c])

/-- What the scanner of `parse` shows of a stream with the given content. -/
def scan (content : String) : ScanRun :=
  ⟨(scanAux content.data []).1, (scanAux content.data []).2⟩

/-- The text made of the given lines, each ended by a newline. -/
def unlines (ls : List String) : String :=
  ⟨ls.foldr (fun l acc => l.data ++ '\n' :: acc) []⟩

/-- A line of 70000 letters `a`. -/
def longLine : String := ⟨List.replicate 70000 'a'⟩

/-- The sample world with the given content on standard input. -/
def stdinEnv (content : String) : Env :=
  { sampleEnv with stdin := scan content }

/-! ## `net.ParseIP` does not depend on letter case -/

theorem parseIPv4Fields_map (L : Char → Char) (hL : KeepsIP L) (s : List Char) :
    ∀ val pos digLen atStart prevDot fields,
      parseIPv4Fields (s.map L) val pos digLen atStart prevDot fields =
        parseIPv4Fields s val pos digLen atStart prevDot fields := by
  induction s with
  | nil => intro val pos digLen atStart prevDot fields; rfl
  | cons c rest ih =>
    intro val pos digLen atStart prevDot fields
    obtain ⟨-, hd, hdot, -, -⟩ := hL c
    simp only [List.map_cons, parseIPv4Fields, hd, ih, List.map_eq_nil_iff]
    have : (L c = '.') = (c = '.') := propext hdot
    simp only [this]

theorem scanHex_map (L : Char → Char) (hL : KeepsIP L) (s : List Char) :
    ∀ off acc, scanHex (s.map L) off acc =
      (scanHex s off acc).map (fun t => (t.1, t.2.1, t.2.2.map L)) := by
  induction s with
  | nil => intro off acc; rfl
  | cons c rest ih =>
    intro off acc
    obtain ⟨hh, -, -, -, -⟩ := hL c
    simp only [List.map_cons, scanHex, hh, ih]
    cases hexVal c with
    | none => simp
    | some v =>
      simp only
      split
      · rfl
      · split <;> rfl

theorem v6loop_map (L : Char → Char) (hL : KeepsIP L) (k : Nat) :
    ∀ s ip ell, v6loop k (s.map L) ip ell =
      (v6loop k s ip ell).map (fun t => (t.1.map L, t.2)) := by
  induction k with
  | zero => intro s ip ell; rfl
  | succ k ih =>
    intro s ip ell
    simp only [v6loop, scanHex_map L hL, parseIPv4Fields_map L hL]
    cases hs : scanHex s 0 0 with
    | none => rfl
    | some t =>
      obtain ⟨off, acc, rest⟩ := t
      simp only [Option.map_some']
      by_cases hoff : off = 0
      · simp [hoff]
      · simp only [hoff, if_false]
        cases rest with
        | nil => rfl
        | cons c rest1 =>
          obtain ⟨-, -, hdot, hcol, -⟩ := hL c
          have e1 : (L c = '.') = (c = '.') := propext hdot
          have e2 : (L c = ':') = (c = ':') := propext hcol
          simp only [List.map_cons, e1, e2]
          by_cases h1 : c = '.'
          · simp only [h1, if_true]
            split
            · rfl
            · split
              · rfl
              · cases parseIPv4Fields s 0 0 0 true false [] <;> rfl
          · simp only [h1, if_false]
            by_cases h2 : c = ':'
            · simp only [h2, if_true]
              cases rest1 with
              | nil => rfl
              | cons c2 rest2 =>
                have e3 : (L c2 = ':') = (c2 = ':') := propext (hL c2).2.2.2.1
                simp only [List.map_cons, e3, List.map_eq_nil_iff]
                by_cases h3 : c2 = ':'
                · simp only [h3, if_true]
                  split
                  · rfl
                  · split
                    · rfl
                    · exact ih _ _ _
                · simp only [h3, if_false]
                  exact ih (c2 :: rest2) _ _
            · simp only [h2, if_false]
              rfl

theorem v6finish_map (L : Char → Char) (t : List Char × List Nat × Option Nat) :
    v6finish (t.1.map L, t.2) = v6finish t := by
  obtain ⟨s, ip, ell⟩ := t
  simp only [v6finish, ne_eq, List.map_eq_nil_iff]

theorem v6loop_finish_map (L : Char → Char) (hL : KeepsIP L) (k : Nat) (s : List Char)
    (ip : List Nat) (ell : Option Nat) :
    (v6loop k (s.map L) ip ell).bind v6finish = (v6loop k s ip ell).bind v6finish := by
  rw [v6loop_map L hL]
  cases v6loop k s ip ell with
  | none => rfl
  | some t => exact v6finish_map L t

theorem parseIPv6Body_map (L : Char → Char) (hL : KeepsIP L) (s : List Char) :
    parseIPv6Body (s.map L) = parseIPv6Body s := by
  match s with
  | [] => rfl
  | [c] =>
    show (v6loop 8 ([c].map L) [] none).bind v6finish = _
    exact v6loop_finish_map L hL 8 [c] [] none
  | c1 :: c2 :: rest =>
    have e1 : (L c1 = ':') = (c1 = ':') := propext (hL c1).2.2.2.1
    have e2 : (L c2 = ':') = (c2 = ':') := propext (hL c2).2.2.2.1
    simp only [List.map_cons, parseIPv6Body, e1, e2, List.map_eq_nil_iff]
    have h1 := v6loop_finish_map L hL 8 rest [] (some 0)
    have h2 := v6loop_finish_map L hL 8 (c1 :: c2 :: rest) [] none
    simp only [List.map_cons] at h1 h2
    rw [h1, h2]

theorem splitZone_map (L : Char → Char) (hL : KeepsIP L) (s : List Char) :
    splitZone (s.map L) = (splitZone s).map (fun p => (p.1.map L, p.2.map L)) := by
  induction s with
  | nil => rfl
  | cons c cs ih =>
    have e : (L c = '%') = (c = '%') := propext (hL c).2.2.2.2
    simp only [List.map_cons, splitZone, e, ih]
    split
    · rfl
    · cases splitZone cs <;> rfl

theorem parseIPv6_map (L : Char → Char) (hL : KeepsIP L) (s : List Char) :
    parseIPv6 (s.map L) = (parseIPv6 s).map (fun p => (p.1, p.2.map L)) := by
  simp only [parseIPv6, splitZone_map L hL]
  cases splitZone s with
  | none =>
    simp only [Option.map_none', parseIPv6Body_map L hL]
    cases parseIPv6Body s <;> rfl
  | some p =>
    obtain ⟨a, zone⟩ := p
    simp only [Option.map_some', List.map_eq_nil_iff, parseIPv6Body_map L hL]
    split
    · rfl
    · cases parseIPv6Body a <;> rfl

theorem parseAddrAux_map (L : Char → Char) (hL : KeepsIP L) (whole s : List Char) :
    parseAddrAux (whole.map L) (s.map L) =
      (parseAddrAux whole s).map (fun p => (p.1, p.2.map L)) := by
  induction s with
  | nil => rfl
  | cons c rest ih =>
    obtain ⟨-, -, hdot, hcol, hpct⟩ := hL c
    have e1 : (L c = '.') = (c = '.') := propext hdot
    have e2 : (L c = ':') = (c = ':') := propext hcol
    have e3 : (L c = '%') = (c = '%') := propext hpct
    simp only [List.map_cons, parseAddrAux, e1, e2, e3, ih, parseIPv6_map L hL, parseIPv4,
      parseIPv4Fields_map L hL]
    split
    · cases parseIPv4Fields whole 0 0 0 true false [] <;> rfl
    · split
      · rfl
      · split <;> rfl

theorem ParseIP_map (L : Char → Char) (hL : KeepsIP L) (s : String) :
    ParseIP ⟨s.data.map L⟩ = ParseIP s := by
  simp only [ParseIP, parseAddrAux_map L hL]
  cases parseAddrAux s.data s.data with
  | none => rfl
  | some p =>
    obtain ⟨ip, zone⟩ := p
    simp only [Option.map_some', List.map_eq_nil_iff]

theorem decVal_none_of_hexVal {c : Char} (h : hexVal c = none) : decVal c = none := by
  unfold hexVal at h
  unfold decVal
  split_ifs at h ⊢
  rfl

theorem hexVal_none_of_ge {c : Char} (h : 128 ≤ c.toNat) : hexVal c = none := by
  unfold hexVal
  have h1 : ¬ (48 ≤ c.toNat ∧ c.toNat ≤ 57) := by omega
  have h2 : ¬ (97 ≤ c.toNat ∧ c.toNat ≤ 102) := by omega
  have h3 : ¬ (65 ≤ c.toNat ∧ c.toNat ≤ 70) := by omega
  simp [h1, h2, h3]

theorem keepsIP_upper (n : Nat) (h1 : 65 ≤ n) (h2 : n ≤ 90) :
    hexVal (Char.ofNat (n + 32)) = hexVal (Char.ofNat n) ∧
    decVal (Char.ofNat (n + 32)) = decVal (Char.ofNat n) ∧
    (Char.ofNat (n + 32) = '.' ↔ Char.ofNat n = '.') ∧
    (Char.ofNat (n + 32) = ':' ↔ Char.ofNat n = ':') ∧
    (Char.ofNat (n + 32) = '%' ↔ Char.ofNat n = '%') := by
  interval_cases n <;> decide

theorem keepsIP_toLowerRune (U : Char → Char) (hU : CaseTableOK U) :
    KeepsIP (toLowerRune U) := by
  intro c
  unfold toLowerRune
  by_cases hc : c.toNat < 128
  · simp only [hc, if_true]
    by_cases hup : 65 ≤ c.toNat ∧ c.toNat ≤ 90
    · simp only [hup, and_self, if_true]
      have := keepsIP_upper c.toNat hup.1 hup.2
      rwa [Char.ofNat_toNat] at this
    · simp only [hup, if_false]
      simp
  · simp only [hc, if_false]
    have hge : 128 ≤ c.toNat := by omega
    obtain ⟨a, b, d, e⟩ := hU c hge
    have hx := hexVal_none_of_ge hge
    refine ⟨by rw [a, hx], by rw [decVal_none_of_hexVal a, decVal_none_of_hexVal hx], ?_, ?_, ?_⟩
    · constructor
      · intro h; exact absurd h b
      · intro h; rw [h] at hge; exact absurd hge (by decide)
    · constructor
      · intro h; exact absurd h d
      · intro h; rw [h] at hge; exact absurd hge (by decide)
    · constructor
      · intro h; exact absurd h e
      · intro h; rw [h] at hge; exact absurd hge (by decide)

theorem parseLine_skipped (U : Char → Char) (text : String) (hosts : Hosts)
    (h : skipped text = true) : parseLine U text hosts = .ok hosts := by
  unfold skipped at h
  simp only [parseLine, h, if_true]

theorem parseLine_fields (U : Char → Char) (text : String) (hosts : Hosts)
    (h : skipped text = false) :
    parseLine U text hosts =
      match lineFields text with
      | [f0] => if ParseIP f0 = none then .ok (hosts.put (ToLower U f0)) else .ok hosts
      | [f0, f1] =>
        match ParseIP f0 with
        | none =>
          if f1 = "localhost" || HasPrefix f1 "localhost." then .ok hosts
          else .error (.unrecognizedFormat (cutComment (TrimLeftSpace text)))
        | some addr =>
          if IsUnspecified addr ||
              (IsLoopback addr && !(HasPrefix f1 "localhost" || HasPrefix f1 "localhost.")) then
            if ParseIP f1 = none then .ok (hosts.put (ToLower U f1)) else .ok hosts
          else .ok hosts
      | _ => .error (.unrecognizedFormat (cutComment (TrimLeftSpace text))) := by
  unfold skipped at h
  simp only [parseLine, h, lineFields]
  rfl

/-- What one line does, read off `parseLine` on the empty map: the hosts it adds. -/
theorem parseLine_eq (U : Char → Char) (text : String) (hosts : Hosts) :
    parseLine U text hosts =
      match parseLine U text [] with
      | .error e => .error e
      | .ok l => .ok (l.foldl Hosts.put hosts) := by
  cases hs : skipped text with
  | true => rw [parseLine_skipped U text hosts hs, parseLine_skipped U text [] hs]; rfl
  | false =>
    rw [parseLine_fields U text hosts hs, parseLine_fields U text [] hs]
    split
    · split <;> rfl
    · split
      · split <;> rfl
      · split
        · split <;> rfl
        · rfl
    · rfl

theorem put_nil (k : String) : Hosts.put [] k = [k] := rfl

theorem parseLine_nil_mem (U : Char → Char) (text : String) (l : Hosts)
    (h : parseLine U text [] = .ok l) (x : String) (hx : x ∈ l) : AddedBy U text x := by
  cases hs : skipped text with
  | true =>
    rw [parseLine_skipped U text [] hs] at h
    cases h
    cases hx
  | false =>
    rw [parseLine_fields U text [] hs] at h
    refine ⟨hs, ?_⟩
    split at h
    · rename_i f0 hf
      split at h
      · rename_i hip
        cases h
        rw [put_nil, List.mem_singleton] at hx
        exact ⟨f0, hx, hip, Or.inl hf⟩
      · cases h
        cases hx
    · rename_i f0 f1 hf
      split at h
      · split at h
        · cases h
          cases hx
        · cases h
      · rename_i addr hip
        split at h
        · rename_i hg
          split at h
          · rename_i hip1
            cases h
            rw [put_nil, List.mem_singleton] at hx
            refine ⟨f1, hx, hip1, Or.inr ⟨f0, addr, hf, hip, ?_⟩⟩
            simp only [Bool.or_eq_true, Bool.and_eq_true, Bool.not_eq_true',
              Bool.or_eq_false_iff] at hg
            rcases hg with hg | hg
            · exact Or.inl hg
            · exact Or.inr ⟨hg.1, hg.2.1⟩
          · cases h
            cases hx
        · cases h
          cases hx
    · cases h

/-! ## The line loop, the order of `sort.Strings`, and the sources -/

theorem parseLine_split (U : Char → Char) (text : String) (hosts : Hosts) :
    parseLine U text hosts =
      match lineError U text with
      | some e => .error e
      | none => .ok ((added U text).foldl Hosts.put hosts) := by
  rw [parseLine_eq]
  unfold lineError added
  cases parseLine U text [] <;> rfl

theorem mem_put (hosts : Hosts) (k x : String) :
    x ∈ hosts.put k ↔ x ∈ hosts ∨ x = k := by
  unfold Hosts.put
  split
  · constructor
    · intro h; exact Or.inl h
    · rintro (h | h)
      · exact h
      · rw [h]; assumption
  · simp

theorem nodup_put (hosts : Hosts) (k : String) (h : hosts.Nodup) : (hosts.put k).Nodup := by
  unfold Hosts.put
  split
  · exact h
  · rename_i hk
    rw [List.nodup_append]
    refine ⟨h, List.nodup_singleton k, ?_⟩
    intro a ha hb
    rw [List.mem_singleton] at hb
    rw [hb] at ha
    exact hk ha

theorem mem_foldl_put (l : List String) (hosts : Hosts) (x : String) :
    x ∈ l.foldl Hosts.put hosts ↔ x ∈ hosts ∨ x ∈ l := by
  induction l generalizing hosts with
  | nil => simp
  | cons k l ih =>
    rw [List.foldl_cons, ih, mem_put, List.mem_cons]
    tauto

theorem nodup_foldl_put (l : List String) (hosts : Hosts) (h : hosts.Nodup) :
    (l.foldl Hosts.put hosts).Nodup := by
  induction l generalizing hosts with
  | nil => exact h
  | cons k l ih => exact ih _ (nodup_put hosts k h)

theorem parseLoop_cons_ok (U : Char → Char) (text : String) (rest : List (String × Option Error))
    (hosts : Hosts) (h : lineError U text = none) :
    parseLoop U ((text, none) :: rest) hosts =
      parseLoop U rest ((added U text).foldl Hosts.put hosts) := by
  simp only [parseLoop, parseLine_split U text hosts, h]

theorem parseLoop_cons_err (U : Char → Char) (text : String) (rest : List (String × Option Error))
    (hosts : Hosts) (e : Error) (h : lineError U text = some e) :
    parseLoop U ((text, none) :: rest) hosts = (some e, hosts) := by
  simp only [parseLoop, parseLine_split U text hosts, h]

theorem parseLoop_cons_scanErr (U : Char → Char) (text : String) (e : Error)
    (rest : List (String × Option Error)) (hosts : Hosts) :
    parseLoop U ((text, some e) :: rest) hosts = (some e, hosts) := rfl

theorem parseLoop_nodup (U : Char → Char) (toks : List (String × Option Error)) :
    ∀ hosts : Hosts, hosts.Nodup → (parseLoop U toks hosts).2.Nodup := by
  induction toks with
  | nil => intro hosts h; exact h
  | cons t rest ih =>
    intro hosts h
    obtain ⟨text, serr⟩ := t
    cases serr with
    | some e => exact h
    | none =>
      cases hl : lineError U text with
      | some e => rw [parseLoop_cons_err U text rest hosts e hl]; exact h
      | none =>
        rw [parseLoop_cons_ok U text rest hosts hl]
        exact ih _ (nodup_foldl_put _ _ h)

theorem parseLoop_ok_iff (U : Char → Char) (toks : List (String × Option Error)) :
    ∀ hosts : Hosts, (parseLoop U toks hosts).1 = none ↔ ∀ t ∈ toks, TokenOK U t := by
  induction toks with
  | nil => intro hosts; simp [parseLoop]
  | cons t rest ih =>
    intro hosts
    obtain ⟨text, serr⟩ := t
    cases serr with
    | some e =>
      rw [parseLoop_cons_scanErr]
      simp [TokenOK]
    | none =>
      cases hl : lineError U text with
      | some e =>
        rw [parseLoop_cons_err U text rest hosts e hl]
        simp [TokenOK, hl]
      | none =>
        rw [parseLoop_cons_ok U text rest hosts hl, ih]
        simp [TokenOK, hl]

theorem parseLoop_mem_inv (U : Char → Char) (toks : List (String × Option Error)) (x : String) :
    ∀ hosts : Hosts, x ∈ (parseLoop U toks hosts).2 →
      x ∈ hosts ∨ ∃ t ∈ toks, x ∈ added U t.1 := by
  induction toks with
  | nil => intro hosts h; exact Or.inl h
  | cons t rest ih =>
    intro hosts h
    obtain ⟨text, serr⟩ := t
    cases serr with
    | some e => exact Or.inl h
    | none =>
      cases hl : lineError U text with
      | some e => rw [parseLoop_cons_err U text rest hosts e hl] at h; exact Or.inl h
      | none =>
        rw [parseLoop_cons_ok U text rest hosts hl] at h
        rcases ih _ h with h1 | ⟨t, ht, hx⟩
        · rw [mem_foldl_put] at h1
          rcases h1 with h1 | h1
          · exact Or.inl h1
          · exact Or.inr ⟨(text, none), List.mem_cons_self _ _, h1⟩
        · exact Or.inr ⟨t, List.mem_cons_of_mem _ ht, hx⟩

theorem parseLoop_mem_iff (U : Char → Char) (toks : List (String × Option Error)) (x : String) :
    ∀ hosts : Hosts, (parseLoop U toks hosts).1 = none →
      (x ∈ (parseLoop U toks hosts).2 ↔ x ∈ hosts ∨ ∃ t ∈ toks, x ∈ added U t.1) := by
  induction toks with
  | nil => intro hosts _; simp [parseLoop]
  | cons t rest ih =>
    intro hosts hok
    obtain ⟨text, serr⟩ := t
    cases serr with
    | some e => rw [parseLoop_cons_scanErr] at hok; cases hok
    | none =>
      cases hl : lineError U text with
      | some e => rw [parseLoop_cons_err U text rest hosts e hl] at hok; cases hok
      | none =>
        rw [parseLoop_cons_ok U text rest hosts hl] at hok ⊢
        rw [ih _ hok, mem_foldl_put]
        simp only [List.mem_cons, exists_eq_or_imp]
        tauto

theorem lexLE_total (a b : List Nat) : lexLE a b = true ∨ lexLE b a = true := by
  induction a generalizing b with
  | nil => exact Or.inl rfl
  | cons x xs ih =>
    cases b with
    | nil => exact Or.inr rfl
    | cons y ys =>
      simp only [lexLE, Bool.or_eq_true, decide_eq_true_eq, Bool.and_eq_true, beq_iff_eq]
      rcases Nat.lt_trichotomy x y with h | h | h
      · exact Or.inl (Or.inl h)
      · rcases ih ys with h1 | h1
        · exact Or.inl (Or.inr ⟨h, h1⟩)
        · exact Or.inr (Or.inr ⟨h.symm, h1⟩)
      · exact Or.inr (Or.inl h)

theorem lexLE_trans (a b c : List Nat) (h1 : lexLE a b = true) (h2 : lexLE b c = true) :
    lexLE a c = true := by
  induction a generalizing b c with
  | nil => rfl
  | cons x xs ih =>
    cases b with
    | nil => simp [lexLE] at h1
    | cons y ys =>
      cases c with
      | nil => simp [lexLE] at h2
      | cons z zs =>
        simp only [lexLE, Bool.or_eq_true, decide_eq_true_eq, Bool.and_eq_true,
          beq_iff_eq] at h1 h2 ⊢
        rcases h1 with h1 | ⟨h1, h1'⟩
        · rcases h2 with h2 | ⟨h2, _⟩
          · exact Or.inl (lt_trans h1 h2)
          · exact Or.inl (h2 ▸ h1)
        · rcases h2 with h2 | ⟨h2, h2'⟩
          · exact Or.inl (h1 ▸ h2)
          · exact Or.inr ⟨h1.trans h2, ih ys zs h1' h2'⟩

theorem lexLE_antisymm (a b : List Nat) (h1 : lexLE a b = true) (h2 : lexLE b a = true) :
    a = b := by
  induction a generalizing b with
  | nil =>
    cases b with
    | nil => rfl
    | cons y ys => simp [lexLE] at h2
  | cons x xs ih =>
    cases b with
    | nil => simp [lexLE] at h1
    | cons y ys =>
      simp only [lexLE, Bool.or_eq_true, decide_eq_true_eq, Bool.and_eq_true,
        beq_iff_eq] at h1 h2
      rcases h1 with h1 | ⟨h1, h1'⟩
      · rcases h2 with h2 | ⟨h2, _⟩
        · exact absurd (lt_trans h1 h2) (lt_irrefl _)
        · rw [h2] at h1; exact absurd h1 (lt_irrefl _)
      · rcases h2 with h2 | ⟨_, h2'⟩
        · rw [h1] at h2; exact absurd h2 (lt_irrefl _)
        · rw [h1, ih ys h1' h2']

theorem codes_injective (a b : String)
    (h : a.data.map Char.toNat = b.data.map Char.toNat) : a = b := by
  have hinj : Function.Injective Char.toNat := by
    intro c d hcd
    have := congrArg Char.ofNat hcd
    rwa [Char.ofNat_toNat, Char.ofNat_toNat] at this
  have := List.map_injective_iff.mpr hinj h
  cases a; cases b; simp_all

theorem strLE_total : IsTotal String strLE := ⟨fun _ _ => lexLE_total _ _⟩

theorem strLE_trans : IsTrans String strLE := ⟨fun _ _ _ h1 h2 => lexLE_trans _ _ _ h1 h2⟩

theorem strLE_antisymm : IsAntisymm String strLE :=
  ⟨fun a b h1 h2 => codes_injective a b (lexLE_antisymm _ _ h1 h2)⟩

theorem sortStrings_perm (l : List String) : (sortStrings l).Perm l :=
  List.perm_insertionSort strLE l

theorem sortStrings_sorted (l : List String) : (sortStrings l).Sorted strLE :=
  haveI := strLE_total
  haveI := strLE_trans
  List.sorted_insertionSort strLE l

theorem mem_sortStrings (l : List String) (x : String) : x ∈ sortStrings l ↔ x ∈ l :=
  (sortStrings_perm l).mem_iff

theorem sortStrings_strict (l : List String) (h : l.Nodup) : (sortStrings l).Sorted strLT := by
  have hs := sortStrings_sorted l
  have hn : (sortStrings l).Nodup := (sortStrings_perm l).nodup_iff.mpr h
  unfold List.Sorted at hs ⊢
  rw [List.pairwise_iff_getElem] at hs ⊢
  intro i j hi hj hij
  refine ⟨hs i j hi hj hij, ?_⟩
  intro heq
  have := (List.Nodup.getElem_inj_iff hn).mp heq
  omega

theorem sortStrings_congr (l l1 : List String) (h : l.Nodup) (h1 : l1.Nodup)
    (hm : ∀ x, x ∈ l ↔ x ∈ l1) : sortStrings l = sortStrings l1 := by
  have hp : l.Perm l1 := (List.perm_ext_iff_of_nodup h h1).mpr hm
  haveI := strLE_antisymm
  apply List.eq_of_perm_of_sorted _ (sortStrings_sorted l) (sortStrings_sorted l1)
  exact ((sortStrings_perm l).trans hp).trans (sortStrings_perm l1).symm

theorem parseSource_eq (env : Env) (filename : String) (hosts : Hosts) :
    parseSource env filename hosts =
      match sourceStream env filename with
      | .error e => (some e, hosts)
      | .ok none => (none, hosts)
      | .ok (some r) => parse env.lower r hosts := by
  unfold parseSource sourceStream parseRemoteSource parseLocalSource opened
  cases env.parseRequestURI filename with
  | error e =>
    simp only
    cases env.osOpen (env.clean filename) <;> rfl
  | ok loc =>
    simp only
    split
    · cases env.clientDo loc <;> rfl
    · rfl

theorem parseSources_eq (env : Env) (source : List String) :
    ∀ hosts, parseSources env source hosts =
      readStreams env.lower (source.map (sourceStream env)) hosts := by
  induction source with
  | nil => intro hosts; rfl
  | cons f rest ih =>
    intro hosts
    simp only [parseSources, parseSource_eq, List.map_cons]
    cases hs : sourceStream env f with
    | error e => rfl
    | ok o =>
      cases o with
      | none => simp only [readStreams]; exact ih hosts
      | some r =>
        simp only [readStreams]
        rcases hp : parse env.lower r hosts with ⟨_ | e, h1⟩
        · exact ih h1
        · rfl

theorem readSources_eq (env : Env) (source : List String) :
    readSources env source = readStreams env.lower (streams env source) [] := by
  unfold readSources streams usesStdin
  split
  · simp only [readStreams]
    rcases parse env.lower env.stdin [] with ⟨_ | e, h1⟩ <;> rfl
  · exact parseSources_eq env source []

theorem readStreams_nodup (U : Char → Char) (sts : List (Except Error (Option ScanRun))) :
    ∀ hosts : Hosts, hosts.Nodup → (readStreams U sts hosts).2.Nodup := by
  induction sts with
  | nil => intro hosts h; exact h
  | cons st rest ih =>
    intro hosts h
    match st with
    | .error e => exact h
    | .ok none => exact ih hosts h
    | .ok (some r) =>
      simp only [readStreams]
      have hn := parseLoop_nodup U r.tokens hosts h
      rcases hp : parse U r hosts with ⟨_ | e, h1⟩
      · have : h1 = (parseLoop U r.tokens hosts).2 := by
          unfold parse at hp; rw [hp]
        exact ih h1 (this ▸ hn)
      · have : h1 = (parseLoop U r.tokens hosts).2 := by
          unfold parse at hp; rw [hp]
        exact this ▸ hn

theorem readStreams_ok_iff (U : Char → Char) (sts : List (Except Error (Option ScanRun))) :
    ∀ hosts : Hosts, (readStreams U sts hosts).1 = none ↔ ∀ st ∈ sts, StreamOK U st := by
  induction sts with
  | nil => intro hosts; simp [readStreams]
  | cons st rest ih =>
    intro hosts
    match st with
    | .error e => simp [readStreams, StreamOK]
    | .ok none => simp [readStreams, StreamOK, ih hosts]
    | .ok (some r) =>
      simp only [readStreams, List.mem_cons, forall_eq_or_imp, StreamOK]
      have hk := parseLoop_ok_iff U r.tokens hosts
      rcases hp : parse U r hosts with ⟨_ | e, h1⟩
      · have : (parseLoop U r.tokens hosts).1 = none := by
          unfold parse at hp; rw [hp]
        simp only [ih h1]
        constructor
        · intro h; exact ⟨hk.mp this, h⟩
        · intro h; exact h.2
      · have : (parseLoop U r.tokens hosts).1 = some e := by
          unfold parse at hp; rw [hp]
        simp only [reduceCtorEq, false_iff, not_and]
        intro h
        rw [hk.mpr h] at this
        cases this

theorem readStreams_mem_inv (U : Char → Char) (sts : List (Except Error (Option ScanRun)))
    (x : String) :
    ∀ hosts : Hosts, x ∈ (readStreams U sts hosts).2 →
      x ∈ hosts ∨ ∃ st ∈ sts, StreamAdds U st x := by
  induction sts with
  | nil => intro hosts h; exact Or.inl h
  | cons st rest ih =>
    intro hosts h
    match st with
    | .error e => exact Or.inl h
    | .ok none =>
      rcases ih hosts h with h1 | ⟨s, hs, ha⟩
      · exact Or.inl h1
      · exact Or.inr ⟨s, List.mem_cons_of_mem _ hs, ha⟩
    | .ok (some r) =>
      simp only [readStreams] at h
      have key : ∀ y, y ∈ (parseLoop U r.tokens hosts).2 →
          y ∈ hosts ∨ ∃ st ∈ (Except.ok (some r) :: rest), StreamAdds U st y := by
        intro y hy
        rcases parseLoop_mem_inv U r.tokens y hosts hy with h1 | ⟨t, ht, hx⟩
        · exact Or.inl h1
        · exact Or.inr ⟨_, List.mem_cons_self _ _, r, rfl, t, ht, hx⟩
      rcases hp : parse U r hosts with ⟨_ | e, h1⟩
      · rw [hp] at h
        have e1 : h1 = (parseLoop U r.tokens hosts).2 := by
          unfold parse at hp; rw [hp]
        rcases ih h1 h with h2 | ⟨s, hs, ha⟩
        · exact key x (e1 ▸ h2)
        · exact Or.inr ⟨s, List.mem_cons_of_mem _ hs, ha⟩
      · rw [hp] at h
        have e1 : h1 = (parseLoop U r.tokens hosts).2 := by
          unfold parse at hp; rw [hp]
        exact key x (e1 ▸ h)

theorem readStreams_mem_iff (U : Char → Char) (sts : List (Except Error (Option ScanRun)))
    (x : String) :
    ∀ hosts : Hosts, (readStreams U sts hosts).1 = none →
      (x ∈ (readStreams U sts hosts).2 ↔ x ∈ hosts ∨ ∃ st ∈ sts, StreamAdds U st x) := by
  induction sts with
  | nil => intro hosts _; simp [readStreams]
  | cons st rest ih =>
    intro hosts hok
    match st with
    | .error e => simp [readStreams] at hok
    | .ok none =>
      simp only [readStreams] at hok ⊢
      rw [ih hosts hok]
      simp only [List.mem_cons, exists_eq_or_imp]
      have : ¬ StreamAdds U (Except.ok none) x := by
        rintro ⟨r, hr, -⟩; cases hr
      tauto
    | .ok (some r) =>
      simp only [readStreams] at hok ⊢
      rcases hp : parse U r hosts with ⟨_ | e, h1⟩
      · rw [hp] at hok
        simp only at hok ⊢
        have e0 : (parseLoop U r.tokens hosts).1 = none := by
          unfold parse at hp; rw [hp]
        have e1 : h1 = (parseLoop U r.tokens hosts).2 := by
          unfold parse at hp; rw [hp]
        rw [ih h1 hok, e1, parseLoop_mem_iff U r.tokens x hosts e0]
        simp only [List.mem_cons, exists_eq_or_imp]
        have : StreamAdds U (Except.ok (some r)) x ↔ ∃ t ∈ r.tokens, x ∈ added U t.1 := by
          constructor
          · rintro ⟨r1, hr, h⟩
            cases hr
            exact h
          · intro h; exact ⟨r, rfl, h⟩
        constructor
        · rintro ((h | h) | h)
          · exact Or.inl h
          · exact Or.inr (Or.inl (this.mpr h))
          · exact Or.inr (Or.inr h)
        · rintro (h | h | h)
          · exact Or.inl (Or.inl h)
          · exact Or.inl (Or.inr (this.mp h))
          · exact Or.inr h
      · rw [hp] at hok
        cases hok

/-! ## The claims about `parse` -/

theorem parseLoop_append (U : Char → Char) (pre rest : List (String × Option Error)) :
    ∀ hosts : Hosts, (parseLoop U pre hosts).1 = none →
      parseLoop U (pre ++ rest) hosts = parseLoop U rest (parseLoop U pre hosts).2 := by
  induction pre with
  | nil => intro hosts _; rfl
  | cons t pre ih =>
    intro hosts hok
    obtain ⟨text, serr⟩ := t
    cases serr with
    | some e => rw [parseLoop_cons_scanErr] at hok; cases hok
    | none =>
      cases hl : lineError U text with
      | some e => rw [parseLoop_cons_err U text pre hosts e hl] at hok; cases hok
      | none =>
        rw [parseLoop_cons_ok U text pre hosts hl] at hok ⊢
        rw [List.cons_append, parseLoop_cons_ok U text _ hosts hl]
        exact ih _ hok

theorem hasPrefix_localhost_of_name (h : String) (hn : isLocalhostName h = true) :
    HasPrefix h "localhost" = true := by
  unfold isLocalhostName at hn
  simp only [Bool.or_eq_true, decide_eq_true_eq] at hn
  rcases hn with hn | hn
  · rw [hn]; decide
  · unfold HasPrefix at hn ⊢
    rw [List.isPrefixOf_iff_prefix] at hn ⊢
    obtain ⟨t, ht⟩ := hn
    refine ⟨'.' :: t, ?_⟩
    rw [← ht]
    rfl

/-- What `parse` does with an `<address> <hostname>` line whose address is an IP
literal: the lowercased hostname is added exactly when it is no IP literal and the
address is unspecified, or is a loopback address and the hostname does not start
with `localhost`. -/
theorem parseLine_address_line (U : Char → Char) (text a h : String) (addr : IP)
    (hosts : Hosts) (hs : skipped text = false) (hf : lineFields text = [a, h])
    (ha : ParseIP a = some addr) :
    parseLine U text hosts =
      .ok (if ParseIP h = none ∧ (IsUnspecified addr = true ∨
              (IsLoopback addr = true ∧ HasPrefix h "localhost" = false))
            then hosts.put (ToLower U h) else hosts) := by
  rw [parseLine_fields U text hosts hs, hf]
  simp only [ha]
  by_cases hu : IsUnspecified addr = true
  · simp only [hu, Bool.true_or, if_true, true_or, and_true]
    split <;> rfl
  · by_cases hl : IsLoopback addr = true
    · by_cases hp : HasPrefix h "localhost" = true
      · simp [hu, hl, hp]
      · simp only [Bool.not_eq_true] at hu hp
        have hp2 : HasPrefix h "localhost." = false := by
          by_contra hc
          simp only [Bool.not_eq_false] at hc
          have := hasPrefix_localhost_of_name h (by simp [isLocalhostName, hc])
          rw [hp] at this
          cases this
        simp only [hu, hl, hp, hp2, Bool.or_self, Bool.not_false, Bool.and_self,
          Bool.or_true, if_true, and_self, or_true, and_true, Bool.false_or]
        split <;> simp_all
    · simp [hu, hl]

/-- C1, the code departs from the claim: in `127.0.0.1 localhostads.example.com` the
address is a loopback address and the hostname is no IP literal, is not `localhost`
and does not start with `localhost.`, yet `parse` returns nil and adds nothing. -/
theorem parse_drops_localhost_prefixed_name :
    skipped "127.0.0.1 localhostads.example.com" = false ∧
    lineFields "127.0.0.1 localhostads.example.com" =
      ["127.0.0.1", "localhostads.example.com"] ∧
    (ParseIP "127.0.0.1").map IsLoopback = some true ∧
    ParseIP "localhostads.example.com" = none ∧
    isLocalhostName "localhostads.example.com" = false ∧
    parse id ⟨[("127.0.0.1 localhostads.example.com", none)], none⟩ [] = (none, []) := by
  decide

/-- C3, the claim as stated fails: on the line `  a b c` the error carries `a b c`,
the line without its leading white space, not the text of the line. -/
theorem format_error_text_is_trimmed :
    parse id ⟨[("  a b c", none)], none⟩ [] = (some (.unrecognizedFormat "a b c"), []) ∧
    Error.unrecognizedFormat "a b c" ≠ Error.unrecognizedFormat "  a b c" := by
  decide

/-- C3, amended: `parse` fails at a line exactly when the line is not passed over and
its fields number neither one nor two, or are two with a first field that is no IP
literal and a second that is neither `localhost` nor starts with `localhost.`; the
error carries the line with leading white space stripped and cut at the first `#`;
and `parse` stops there: the lines after it are not read and the host map is the one
built from the lines before it. -/
theorem parse_format_error (U : Char → Char) (text : String) (e : Error) :
    (∀ hosts : Hosts, parseLine U text hosts = .error e ↔
      e = .unrecognizedFormat (cutComment (TrimLeftSpace text)) ∧ skipped text = false ∧
        (((lineFields text).length ≠ 1 ∧ (lineFields text).length ≠ 2) ∨
          ∃ a h, lineFields text = [a, h] ∧ ParseIP a = none ∧ isLocalhostName h = false)) ∧
    (∀ (pre post : List (String × Option Error)) (err : Option Error) (hosts : Hosts),
      (∀ t ∈ pre, TokenOK U t) → parseLine U text (parseLoop U pre hosts).2 = .error e →
        parse U ⟨pre ++ (text, none) :: post, err⟩ hosts =
          (some e, (parseLoop U pre hosts).2)) := by
  constructor
  · intro hosts
    cases hs : skipped text with
    | true =>
      rw [parseLine_skipped U text hosts hs]
      simp
    | false =>
      rw [parseLine_fields U text hosts hs]
      simp only [true_and]
      generalize lineFields text = fl
      match fl with
      | [] =>
        simp only [Except.error.injEq, List.length_nil]
        constructor
        · intro h
          exact ⟨h.symm, Or.inl ⟨by omega, by omega⟩⟩
        · intro h; exact h.1.symm
      | [f0] =>
        simp only [List.length_cons, List.length_nil]
        split <;> simp
      | [f0, f1] =>
        simp only [List.length_cons, List.length_nil, List.cons.injEq, and_true]
        cases hip : ParseIP f0 with
        | none =>
          simp only
          have hn : (f1 = "localhost" || HasPrefix f1 "localhost.") = isLocalhostName f1 := rfl
          rw [hn]
          cases hl : isLocalhostName f1 with
          | true =>
            simp only [if_true, reduceCtorEq, false_iff, not_and, not_or]
            intro _
            refine ⟨by simp, ?_⟩
            rintro ⟨a, h, hh, -, hn⟩
            rw [← hh.2, hl] at hn
            cases hn
          | false =>
            simp only [Bool.false_eq_true, if_false, Except.error.injEq]
            constructor
            · intro h
              exact ⟨h.symm, Or.inr ⟨f0, f1, ⟨rfl, rfl⟩, hip, hl⟩⟩
            · intro h; exact h.1.symm
        | some addr =>
          have : ¬ ∃ a h, (f0 = a ∧ f1 = h) ∧ ParseIP a = none ∧ isLocalhostName h = false := by
            rintro ⟨a, h, hh, hn, -⟩
            rw [← hh.1, hip] at hn
            cases hn
          simp only
          split
          · split <;> simp [this]
          · simp [this]
      | f0 :: f1 :: f2 :: tl =>
        simp only [Except.error.injEq, List.length_cons]
        constructor
        · intro h
          exact ⟨h.symm, Or.inl ⟨by omega, by omega⟩⟩
        · intro h; exact h.1.symm
  · intro pre post err hosts hpre hline
    have hok := (parseLoop_ok_iff U pre hosts).mpr hpre
    unfold parse
    simp only
    rw [parseLoop_append U pre _ hosts hok]
    simp only [parseLoop, hline]

theorem added_mem (U : Char → Char) (text x : String) (hx : x ∈ added U text) :
    AddedBy U text x := by
  unfold added at hx
  cases hp : parseLine U text [] with
  | error e => rw [hp] at hx; cases hx
  | ok l => rw [hp] at hx; exact parseLine_nil_mem U text l hp x hx

theorem ParseIP_ToLower (U : Char → Char) (hU : CaseTableOK U) (s : String) :
    ParseIP (ToLower U s) = ParseIP s :=
  ParseIP_map (toLowerRune U) (keepsIP_toLowerRune U hU) s

theorem caseTableOK_id : CaseTableOK id := by
  intro c hc
  refine ⟨hexVal_none_of_ge hc, ?_, ?_, ?_⟩ <;>
  · intro h
    have h2 : c = _ := h
    rw [h2] at hc
    exact absurd hc (by decide)

/-- C4, the claim as stated fails: the bare line `localhost` puts `localhost` in the
host map. -/
theorem bare_localhost_is_added :
    parse id ⟨[("localhost", none)], none⟩ [] = (none, ["localhost"]) ∧
    isLocalhostName "localhost" = true := by
  decide

/-- C4, amended: starting from the empty map, when no bare-hostname line and no line
with the unspecified address names a host whose lowercase form is `localhost` or
starts with `localhost.`, and the hostnames of the lines with a loopback address are
written in lower case, the host map holds no such name after `parse`. -/
theorem hosts_localhost_free (U : Char → Char) (r : ScanRun)
    (hbare : ∀ t ∈ r.tokens, ∀ f, skipped t.1 = false → lineFields t.1 = [f] →
      isLocalhostName (ToLower U f) = false)
    (hunspec : ∀ t ∈ r.tokens, ∀ a f addr, skipped t.1 = false → lineFields t.1 = [a, f] →
      ParseIP a = some addr → IsUnspecified addr = true →
      isLocalhostName (ToLower U f) = false)
    (hcase : ∀ t ∈ r.tokens, ∀ a f addr, skipped t.1 = false → lineFields t.1 = [a, f] →
      ParseIP a = some addr → IsLoopback addr = true → ToLower U f = f)
    (x : String) (hx : x ∈ (parse U r []).2) : isLocalhostName x = false := by
  rcases parseLoop_mem_inv U r.tokens x [] hx with h | ⟨t, ht, hadd⟩
  · cases h
  · obtain ⟨hs, f, hxf, -, hf | ⟨a, addr, hf, ha, hu | ⟨hl, hp⟩⟩⟩ := added_mem U t.1 x hadd
    · rw [hxf]; exact hbare t ht f hs hf
    · rw [hxf]; exact hunspec t ht a f addr hs hf ha hu
    · rw [hxf, hcase t ht a f addr hs hf ha hl]
      cases hn : isLocalhostName f with
      | false => rfl
      | true =>
        rw [hasPrefix_localhost_of_name f hn] at hp
        cases hp

theorem hosts_localhost_free_witness :
    "ads.example.com" ∈ (parse id ⟨[("127.0.0.1 localhost", none),
      ("127.0.0.1 ads.example.com", none)], none⟩ []).2 ∧
    isLocalhostName "ads.example.com" = false := by
  have f1 : lineFields "127.0.0.1 localhost" = ["127.0.0.1", "localhost"] := by decide
  have f2 : lineFields "127.0.0.1 ads.example.com" = ["127.0.0.1", "ads.example.com"] := by
    decide
  have hm : "ads.example.com" ∈ (parse id ⟨[("127.0.0.1 localhost", none),
      ("127.0.0.1 ads.example.com", none)], none⟩ []).2 := by decide
  refine ⟨hm, hosts_localhost_free id _ ?_ ?_ ?_ "ads.example.com" hm⟩
  · intro t ht f _ hf
    simp only [List.mem_cons, List.mem_singleton, List.not_mem_nil, or_false] at ht
    rcases ht with rfl | rfl
    · rw [f1] at hf; simp at hf
    · rw [f2] at hf; simp at hf
  · intro t ht a f addr _ hf ha hu
    simp only [List.mem_cons, List.mem_singleton, List.not_mem_nil, or_false] at ht
    rcases ht with rfl | rfl
    · rw [f1] at hf
      simp only [List.cons.injEq, and_true] at hf
      rw [← hf.1] at ha
      have : ParseIP "127.0.0.1" = some (IPv4 127 0 0 1) := by decide
      rw [this] at ha
      cases ha
      exact absurd hu (by decide)
    · rw [f2] at hf
      simp only [List.cons.injEq, and_true] at hf
      rw [← hf.1] at ha
      have : ParseIP "127.0.0.1" = some (IPv4 127 0 0 1) := by decide
      rw [this] at ha
      cases ha
      exact absurd hu (by decide)
  · intro t ht a f addr _ hf _ _
    simp only [List.mem_cons, List.mem_singleton, List.not_mem_nil, or_false] at ht
    rcases ht with rfl | rfl
    · rw [f1] at hf
      simp only [List.cons.injEq, and_true] at hf
      rw [← hf.2]; decide
    · rw [f2] at hf
      simp only [List.cons.injEq, and_true] at hf
      rw [← hf.2]; decide

/-- C5: starting from the empty map, no element of the host map after `parse` parses
as an IP literal, provided the Unicode case table sends no rune outside ASCII to a
character of IP literals (`CaseTableOK`). -/
theorem hosts_never_ip (U : Char → Char) (hU : CaseTableOK U) (r : ScanRun) (x : String)
    (hx : x ∈ (parse U r []).2) : ParseIP x = none := by
  rcases parseLoop_mem_inv U r.tokens x [] hx with h | ⟨t, _, hadd⟩
  · cases h
  · obtain ⟨-, f, hxf, hip, -⟩ := added_mem U t.1 x hadd
    rw [hxf, ParseIP_ToLower U hU, hip]

theorem hosts_never_ip_witness :
    "example.com" ∈ (parse id ⟨[("EXAMPLE.COM", none), ("10.0.0.1", none),
      ("0.0.0.0 ::1", none), ("0.0.0.0 ABCD::EF", none)], none⟩ []).2 ∧
    ParseIP "example.com" = none :=
  ⟨by decide, hosts_never_ip id caseTableOK_id ⟨[("EXAMPLE.COM", none), ("10.0.0.1", none),
      ("0.0.0.0 ::1", none), ("0.0.0.0 ABCD::EF", none)], none⟩ "example.com" (by decide)⟩

theorem parse_format_error_witness :
    (∀ t ∈ [("example.com", (none : Option Error))], TokenOK id t) ∧
    parseLine id "a b c" (parseLoop id [("example.com", none)] []).2 =
      .error (.unrecognizedFormat "a b c") ∧
    parse id ⟨[("example.com", none)] ++ ("a b c", none) :: [("ads.net", none)], none⟩ [] =
      (some (.unrecognizedFormat "a b c"), (parseLoop id [("example.com", none)] []).2) :=
  ⟨by decide, by rfl,
    (parse_format_error id "a b c" (.unrecognizedFormat "a b c")).2
      [("example.com", none)] [("ads.net", none)] none [] (by decide) (by rfl)⟩

/-! ## The claims about `Parse` and `Write` -/

/-- C6, the code departs from the claim: the source `/etc/hosts` parses as a URI
without a scheme, so it is no absolute URI, yet `Parse` does not open it: with a
readable `/etc/hosts` holding `0.0.0.0 ads.net` the writer receives no host, while
the same file under the name `hosts.txt`, which the URI parser rejects, is read. -/
theorem schemeless_source_is_skipped :
    sourceStream sampleEnv "/etc/hosts" = .ok none ∧
    (sampleEnv.osOpen (sampleEnv.clean "/etc/hosts")).toOption.map ScanRun.tokens =
      some [("0.0.0.0 ads.net", none)] ∧
    Parse sampleEnv id ["/etc/hosts"] = .ok [] ∧
    Parse sampleEnv id ["hosts.txt"] = .ok ["ads.net"] := by
  refine ⟨?_, ?_, ?_, ?_⟩ <;> rfl

/-- C7, the code departs from the claim: when the stream fails after the complete
line `0.0.0.0 ads.net` (with a read error, or with `bufio.ErrTooLong` on the next
line), `parse` returns nil, and `Parse` hands the partial list to the writer. -/
theorem read_failure_is_swallowed :
    parse id ⟨[("0.0.0.0 ads.net", none)], some (.failure "read: connection reset by peer")⟩ []
      = (none, ["ads.net"]) ∧
    parse id ⟨[("0.0.0.0 ads.net", none)], some .tooLong⟩ [] = (none, ["ads.net"]) ∧
    Parse brokenStdinEnv id [] = .ok ["ads.net"] := by
  refine ⟨?_, ?_, ?_⟩ <;> rfl

/-- C10, the code departs from the claim: for the existing directory `/tmp`, where
`os.Stat` succeeds and reports a directory, `os.IsExist(err)` is false, the target
stays `/tmp` instead of `/tmp/blacklist.conf`, and `Write` returns the error of opening
a directory for writing. -/
theorem directory_target_not_joined :
    (sampleOS.stat "/tmp").1.map FileInfo.isDir = some true ∧
    (sampleOS.stat "/tmp").2 = none ∧
    target sampleOS "/tmp" (sampleOS.stat "/tmp").1 (sampleOS.stat "/tmp").2 = some "/tmp" ∧
    Write sampleOS "/tmp" ["ads.net"] = .failed (.isDirectory "/tmp") := by
  refine ⟨?_, ?_, ?_, ?_⟩ <;> rfl

theorem Write_text (os : OS) (output : String) (hosts : List String) (sink : Sink)
    (text : String) (h : Write os output hosts = .wrote sink text) : text = render hosts := by
  unfold Write at h
  split at h
  · cases h; rfl
  · split at h
    split at h
    · cases h
    · split at h
      · cases h
      · split at h
        · cases h
        · cases h; rfl

/-- C8: when parsing succeeds, `Parse` calls `Write` on a list `names` that is
strictly ascending in the order of `sort.Strings` and has exactly the elements of the
host map (so one entry per distinct hostname); to standard output `Write` sends the
concatenation of the lines `local-zone: <h>. always_nxdomain\n` for `h` in `names`, and
whenever it returns nil the text it has written is that concatenation. -/
theorem Parse_emits_sorted_zone_lines (env : Env) (os : OS) (output : String)
    (source : List String) (hok : (readSources env source).1 = none) :
    ∃ names : List String,
      Parse env (Write os output) source = .ok (Write os output names) ∧
      names.Sorted strLT ∧
      (∀ x, x ∈ names ↔ x ∈ (readSources env source).2) ∧
      names.length = (readSources env source).2.length ∧
      Write os "" names = .wrote .stdout (String.join (names.map zoneLine)) ∧
      ∀ sink text, Write os output names = .wrote sink text →
        text = String.join (names.map zoneLine) := by
  refine ⟨sortStrings (readSources env source).2, ?_, ?_, ?_, ?_, rfl, ?_⟩
  · unfold Parse
    rcases hr : readSources env source with ⟨_ | e, hosts⟩
    · rfl
    · rw [hr] at hok; cases hok
  · apply sortStrings_strict
    rw [readSources_eq]
    exact readStreams_nodup _ _ [] List.nodup_nil
  · exact mem_sortStrings _
  · exact (sortStrings_perm _).length_eq
  · intro sink text h
    exact Write_text os output _ sink text h

theorem Parse_emits_sorted_zone_lines_witness :
    (readSources sampleEnv []).1 = none ∧
    Parse sampleEnv (Write sampleOS "") [] = .ok (.wrote .stdout
      "local-zone: ads.net. always_nxdomain\nlocal-zone: example.com. always_nxdomain\n") ∧
    ∃ names : List String,
      Parse sampleEnv (Write sampleOS "") [] = .ok (Write sampleOS "" names) ∧
      names.Sorted strLT ∧
      (∀ x, x ∈ names ↔ x ∈ (readSources sampleEnv []).2) ∧
      names.length = (readSources sampleEnv []).2.length ∧
      Write sampleOS "" names = .wrote .stdout (String.join (names.map zoneLine)) ∧
      ∀ sink text, Write sampleOS "" names = .wrote sink text →
        text = String.join (names.map zoneLine) :=
  ⟨by rfl, by rfl, Parse_emits_sorted_zone_lines sampleEnv sampleOS "" [] (by rfl)⟩

/-! ## Order of the sources and of the lines -/

theorem usesStdin_of_perm (source source1 : List String) (h : source.Perm source1)
    (hu : usesStdin source) : usesStdin source1 := by
  unfold usesStdin at hu ⊢
  rcases hu with ⟨h1, h2⟩ | h1
  · left
    match source, h1, h2 with
    | [a], _, h2 =>
      have := List.perm_singleton.mp h.symm
      rw [this]
      exact ⟨rfl, h2⟩
  · right
    rw [← h.length_eq]; exact h1

theorem usesStdin_perm (source source1 : List String) (h : source.Perm source1) :
    usesStdin source ↔ usesStdin source1 :=
  ⟨usesStdin_of_perm source source1 h, usesStdin_of_perm source1 source h.symm⟩

theorem streamOK_some (U : Char → Char) (r : ScanRun) :
    StreamOK U (.ok (some r)) ↔ ∀ t ∈ r.tokens, TokenOK U t := Iff.rfl

theorem streamAdds_some (U : Char → Char) (r : ScanRun) (x : String) :
    StreamAdds U (.ok (some r)) x ↔ ∃ t ∈ r.tokens, x ∈ added U t.1 := by
  constructor
  · rintro ⟨r1, hr, h⟩
    cases hr
    exact h
  · intro h; exact ⟨r, rfl, h⟩

theorem sameLines_lift (U : Char → Char) (a b : Except Error ScanRun) (h : SameLines a b)
    (x : String) :
    (StreamOK U (opened a) ↔ StreamOK U (opened b)) ∧
    (StreamAdds U (opened a) x ↔ StreamAdds U (opened b) x) := by
  match a, b, h with
  | .error e, .error e1, h =>
    cases h
    exact ⟨Iff.rfl, Iff.rfl⟩
  | .ok r, .ok r1, h =>
    have hp : r.tokens.Perm r1.tokens := h
    simp only [opened, streamOK_some, streamAdds_some]
    constructor
    · constructor
      · intro h1 t ht; exact h1 t (hp.mem_iff.mpr ht)
      · intro h1 t ht; exact h1 t (hp.mem_iff.mp ht)
    · constructor
      · rintro ⟨t, ht, hx⟩; exact ⟨t, hp.mem_iff.mp ht, hx⟩
      · rintro ⟨t, ht, hx⟩; exact ⟨t, hp.mem_iff.mpr ht, hx⟩

theorem sourceStream_reordered (env env1 : Env) (he : Reordered env env1) (f x : String) :
    (StreamOK env.lower (sourceStream env f) ↔ StreamOK env.lower (sourceStream env1 f)) ∧
    (StreamAdds env.lower (sourceStream env f) x ↔
      StreamAdds env.lower (sourceStream env1 f) x) := by
  obtain ⟨-, h2, h3, h4, h5, -⟩ := he
  unfold sourceStream
  rw [h2, h3]
  cases env.parseRequestURI f with
  | error e => exact sameLines_lift env.lower _ _ (h4 _) x
  | ok loc =>
    simp only
    split
    · exact sameLines_lift env.lower _ _ (h5 _) x
    · exact ⟨Iff.rfl, Iff.rfl⟩

theorem streams_reordered (env env1 : Env) (source source1 : List String)
    (hs : source.Perm source1) (he : Reordered env env1) (x : String) :
    ((∀ st ∈ streams env source, StreamOK env.lower st) ↔
      (∀ st ∈ streams env1 source1, StreamOK env.lower st)) ∧
    ((∃ st ∈ streams env source, StreamAdds env.lower st x) ↔
      (∃ st ∈ streams env1 source1, StreamAdds env.lower st x)) := by
  unfold streams
  by_cases hu : usesStdin source
  · have hu1 := (usesStdin_perm source source1 hs).mp hu
    simp only [hu, hu1, if_true, List.mem_singleton, forall_eq, exists_eq_left]
    exact sameLines_lift env.lower (.ok env.stdin) (.ok env1.stdin) he.2.2.2.2.2 x
  · have hu1 : ¬ usesStdin source1 := fun h => hu ((usesStdin_perm source source1 hs).mpr h)
    simp only [hu, hu1, if_false, List.mem_map, forall_exists_index, and_imp,
      forall_apply_eq_imp_iff₂, exists_exists_and_eq_and]
    constructor
    · constructor
      · intro h f hf
        exact (sourceStream_reordered env env1 he f x).1.mp (h f (hs.mem_iff.mpr hf))
      · intro h f hf
        exact (sourceStream_reordered env env1 he f x).1.mpr (h f (hs.mem_iff.mp hf))
    · constructor
      · rintro ⟨f, hf, h⟩
        exact ⟨f, hs.mem_iff.mp hf, (sourceStream_reordered env env1 he f x).2.mp h⟩
      · rintro ⟨f, hf, h⟩
        exact ⟨f, hs.mem_iff.mpr hf, (sourceStream_reordered env env1 he f x).2.mpr h⟩

theorem Parse_id_ok_iff (env : Env) (source : List String) (names : List String) :
    Parse env id source = .ok names ↔
      (readSources env source).1 = none ∧ names = sortStrings (readSources env source).2 := by
  unfold Parse
  rcases readSources env source with ⟨_ | e, hosts⟩
  · simp [eq_comm]
  · simp

/-- Order invariance on what the scanner delivers: when the sources are permuted and
the delivered lines of each source are reordered, `Parse` succeeds in one run exactly
when it succeeds in the other, and then the two runs hand the same sorted list to the
writer.  It does not extend to the lines of the sources themselves, since the scanner
may stop before the end of a source. -/
theorem Parse_order_invariant (env env1 : Env) (source source1 : List String)
    (hs : source.Perm source1) (he : Reordered env env1) (names : List String) :
    Parse env id source = .ok names ↔ Parse env1 id source1 = .ok names := by
  have hl : env1.lower = env.lower := he.1
  have key : ∀ x, _ := fun x => streams_reordered env env1 source source1 hs he x
  have hok : (readSources env source).1 = none ↔ (readSources env1 source1).1 = none := by
    rw [readSources_eq, readSources_eq, readStreams_ok_iff, readStreams_ok_iff, hl]
    exact (key "").1
  rw [Parse_id_ok_iff, Parse_id_ok_iff]
  constructor
  · rintro ⟨h1, h2⟩
    have h1b := hok.mp h1
    refine ⟨h1b, ?_⟩
    rw [h2]
    apply sortStrings_congr
    · rw [readSources_eq]; exact readStreams_nodup _ _ [] List.nodup_nil
    · rw [readSources_eq]; exact readStreams_nodup _ _ [] List.nodup_nil
    · intro x
      rw [readSources_eq] at h1 h1b ⊢
      rw [readSources_eq]
      rw [readStreams_mem_iff _ _ x [] h1, readStreams_mem_iff _ _ x [] h1b, hl, (key x).2]
  · rintro ⟨h1b, h2⟩
    have h1 := hok.mpr h1b
    refine ⟨h1, ?_⟩
    rw [h2]
    apply sortStrings_congr
    · rw [readSources_eq]; exact readStreams_nodup _ _ [] List.nodup_nil
    · rw [readSources_eq]; exact readStreams_nodup _ _ [] List.nodup_nil
    · intro x
      rw [readSources_eq] at h1 h1b ⊢
      rw [readSources_eq]
      rw [readStreams_mem_iff _ _ x [] h1, readStreams_mem_iff _ _ x [] h1b, hl, (key x).2]

/-! ## Bare hostnames -/

theorem sameLines_refl (a : Except Error ScanRun) : SameLines a a := by
  match a with
  | .error e => exact rfl
  | .ok r => exact List.Perm.refl _

theorem reordered_sample : Reordered sampleEnv reorderedEnv := by
  refine ⟨rfl, rfl, rfl, ?_, ?_, List.Perm.refl _⟩
  · intro p
    by_cases hp : p = "more.txt"
    · subst hp
      exact List.Perm.swap _ _ _
    · have : reorderedEnv.osOpen p = sampleEnv.osOpen p := by
        show (if p = "more.txt" then _ else sampleEnv.osOpen p) = _
        rw [if_neg hp]
      rw [this]
      exact sameLines_refl _
  · intro u
    exact sameLines_refl _

/-- An instance of `Parse_order_invariant`: two sources in either order, one of them
with its delivered lines in either order. -/
theorem Parse_order_invariant_witness :
    ["hosts.txt", "more.txt"].Perm ["more.txt", "hosts.txt"] ∧
    Reordered sampleEnv reorderedEnv ∧
    Parse sampleEnv id ["hosts.txt", "more.txt"] =
      .ok ["ads.net", "example.com", "tracker.example"] ∧
    Parse reorderedEnv id ["more.txt", "hosts.txt"] =
      .ok ["ads.net", "example.com", "tracker.example"] :=
  ⟨List.Perm.swap _ _ _, reordered_sample, by rfl,
    (Parse_order_invariant sampleEnv reorderedEnv ["hosts.txt", "more.txt"]
      ["more.txt", "hosts.txt"] (List.Perm.swap _ _ _) reordered_sample
      ["ads.net", "example.com", "tracker.example"]).mp (by rfl)⟩

theorem added_bare (U : Char → Char) (text v : String) (hs : skipped text = false)
    (hf : lineFields text = [v]) (hip : ParseIP v = none) :
    added U text = [ToLower U v] := by
  unfold added
  rw [parseLine_fields U text [] hs, hf]
  simp only [hip, if_true]
  rfl

/-- A line whose only field spells, in some letter case, a name `h` that is no IP
literal puts the lowercase form of `h` in the list handed to the writer, once. -/
theorem field_listed_once (env : Env) (hU : CaseTableOK env.lower) (source names : List String)
    (r : ScanRun) (t : String × Option Error) (v h : String)
    (hok : Parse env id source = .ok names)
    (hr : Except.ok (some r) ∈ streams env source) (ht : t ∈ r.tokens)
    (hs : skipped t.1 = false) (hf : lineFields t.1 = [v])
    (hv : ToLower env.lower v = ToLower env.lower h) (hip : ParseIP h = none) :
    names.count (ToLower env.lower h) = 1 := by
  rw [Parse_id_ok_iff] at hok
  obtain ⟨h1, h2⟩ := hok
  have hipv : ParseIP v = none := by
    rw [← ParseIP_ToLower env.lower hU v, hv, ParseIP_ToLower env.lower hU h, hip]
  have hadd : ToLower env.lower h ∈ added env.lower t.1 := by
    rw [added_bare env.lower t.1 v hs hf hipv, hv]
    exact List.mem_singleton_self _
  have hn : (readSources env source).2.Nodup := by
    rw [readSources_eq]; exact readStreams_nodup _ _ [] List.nodup_nil
  have hm : ToLower env.lower h ∈ (readSources env source).2 := by
    rw [readSources_eq] at h1 ⊢
    rw [readStreams_mem_iff _ _ _ [] h1]
    exact Or.inr ⟨_, hr, r, rfl, t, ht, hadd⟩
  rw [h2]
  exact List.count_eq_one_of_mem ((sortStrings_perm _).nodup_iff.mpr hn)
    ((mem_sortStrings _ _).mpr hm)

theorem indexRuneAux_none (r : Char) (l : List Char) (h : ∀ c ∈ l, c ≠ r) :
    ∀ i, indexRuneAux r l i = none := by
  induction l with
  | nil => intro i; rfl
  | cons c cs ih =>
    intro i
    have hc : c ≠ r := h c (List.mem_cons_self _ _)
    simp only [indexRuneAux, hc, if_false]
    exact ih (fun d hd => h d (List.mem_cons_of_mem _ hd)) _

theorem fieldsAux_no_space (f : Char → Bool) (l : List Char) (h : ∀ c ∈ l, f c = false) :
    ∀ cur, cur ++ l ≠ [] → fieldsAux f l cur = [⟨cur ++ l⟩] := by
  induction l with
  | nil =>
    intro cur hne
    rw [List.append_nil] at hne ⊢
    simp only [fieldsAux, hne, if_false]
  | cons c cs ih =>
    intro cur hne
    have hc : f c = false := h c (List.mem_cons_self _ _)
    simp only [fieldsAux, hc, Bool.false_eq_true, if_false]
    rw [ih (fun d hd => h d (List.mem_cons_of_mem _ hd)) (cur ++ [c]) (by simp)]
    simp

/-- A non-empty token without white space and without `#`, alone on a line, is a line
that `parse` does not pass over and whose only field is the token. -/
theorem token_line (v : String) (hne : v.data ≠ [])
    (hv : ∀ c ∈ v.data, IsSpace c = false ∧ c ≠ '#') :
    skipped v = false ∧ lineFields v = [v] := by
  obtain ⟨l⟩ := v
  match l, hne, hv with
  | c :: cs, _, hv =>
    have hc := hv c (List.mem_cons_self _ _)
    have htrim : TrimLeftSpace ⟨c :: cs⟩ = ⟨c :: cs⟩ := by
      unfold TrimLeftSpace
      simp only [List.dropWhile, hc.1]
    have hcut : cutComment ⟨c :: cs⟩ = ⟨c :: cs⟩ := by
      unfold cutComment IndexRune
      rw [indexRuneAux_none '#' (c :: cs) (fun d hd => (hv d hd).2) 0]
    have hfields : Fields ⟨c :: cs⟩ = [⟨c :: cs⟩] := by
      unfold Fields
      have := fieldsAux_no_space IsSpace (c :: cs) (fun d hd => (hv d hd).1) [] (by simp)
      simpa using this
    constructor
    · unfold skipped
      rw [htrim]
      have h1 : HasPrefix ⟨c :: cs⟩ "#" = false := by
        unfold HasPrefix
        show List.isPrefixOf ['#'] (c :: cs) = false
        have : ('#' == c) = false := by
          rw [beq_eq_false_iff_ne]
          exact fun h => hc.2 h.symm
        simp [List.isPrefixOf, this]
      rw [h1]
      rfl
    · unfold lineFields
      rw [htrim, hcut, hfields]

/-- On the lines the scanner delivers: when a token `v` without white space and without
`#` is a delivered line of a stream that `Parse` reads, and `v` spells, in some letter
case, a name `h` that is no IP literal, then on every run in which parsing succeeds
the list handed to the writer contains the lowercase form of `h` exactly once (the
Unicode case table is assumed to send no rune outside ASCII to a character of IP
literals).  It does not extend to the lines the scanner does not deliver. -/
theorem bare_hostname_listed_once (env : Env) (hU : CaseTableOK env.lower)
    (source names : List String) (r : ScanRun) (serr : Option Error) (v h : String)
    (hok : Parse env id source = .ok names)
    (hr : Except.ok (some r) ∈ streams env source) (ht : (v, serr) ∈ r.tokens)
    (hne : v.data ≠ []) (hv : ∀ c ∈ v.data, IsSpace c = false ∧ c ≠ '#')
    (hcase : ToLower env.lower v = ToLower env.lower h) (hip : ParseIP h = none) :
    names.count (ToLower env.lower h) = 1 :=
  field_listed_once env hU source names r (v, serr) v h hok hr ht
    (token_line v hne hv).1 (token_line v hne hv).2 hcase hip

/-- An instance of `bare_hostname_listed_once`: `hosts.txt` and `more.txt`, the latter
with the line `Example.COM`, and the name `EXAMPLE.com`. -/
theorem bare_hostname_listed_once_witness :
    Parse sampleEnv id ["hosts.txt", "more.txt"] =
      .ok ["ads.net", "example.com", "tracker.example"] ∧
    ToLower sampleEnv.lower "Example.COM" = ToLower sampleEnv.lower "EXAMPLE.com" ∧
    ParseIP "EXAMPLE.com" = none ∧
    ["ads.net", "example.com", "tracker.example"].count (ToLower sampleEnv.lower "EXAMPLE.com")
      = 1 :=
  ⟨by rfl, by decide, by decide,
    bare_hostname_listed_once sampleEnv caseTableOK_id ["hosts.txt", "more.txt"]
      ["ads.net", "example.com", "tracker.example"]
      ⟨[("Example.COM", none), ("127.0.0.1 tracker.example", none)], none⟩ none
      "Example.COM" "EXAMPLE.com" (by rfl)
      (by
        show _ ∈ [sourceStream sampleEnv "hosts.txt", sourceStream sampleEnv "more.txt"]
        exact List.mem_cons_of_mem _ (List.mem_singleton.mpr rfl))
      (List.mem_cons_self _ _) (by decide) (by decide) (by decide) (by decide)⟩

/-! ## Lines the scanner does not deliver -/

theorem scanAux_line (l rest : List Char) (h : ∀ c ∈ l, c ≠ '\n') :
    ∀ cur, scanAux (l ++ '\n' :: rest) cur =
      if MaxScanTokenSize ≤ byteLen (cur ++ l) then ([], some .tooLong)
      else ((⟨dropCR (cur ++ l)⟩, none) :: (scanAux rest []).1, (scanAux rest []).2) := by
  induction l with
  | nil => intro cur; simp only [List.nil_append, List.append_nil, scanAux, if_true]
  | cons c cs ih =>
    intro cur
    have hc : c ≠ '\n' := h c (List.mem_cons_self _ _)
    have := ih (fun d hd => h d (List.mem_cons_of_mem _ hd)) (cur ++ [c])
    simp only [List.append_assoc, List.singleton_append] at this
    show scanAux (c :: (cs ++ '\n' :: rest)) cur = _
    simp only [scanAux, hc, if_false]
    exact this

theorem byteLen_replicate (n : Nat) : byteLen (List.replicate n 'a') = n := by
  have h1 : Char.utf8Size 'a' = 1 := by decide
  simp only [byteLen, List.map_replicate, List.sum_replicate, h1, smul_eq_mul, mul_one]

theorem replicate_no_newline (n : Nat) : ∀ c ∈ List.replicate n 'a', c ≠ '\n' := by
  intro c hc
  rw [List.mem_replicate] at hc
  rw [hc.2]
  decide

/-- A line of `MaxScanTokenSize` bytes or more ahead of another line: the scanner
delivers nothing. -/
theorem scan_long_first (n : Nat) (hn : MaxScanTokenSize ≤ n) (name : String) :
    scan (unlines [⟨List.replicate n 'a'⟩, name]) = ⟨[], some .tooLong⟩ := by
  have h := scanAux_line (List.replicate n 'a') (name.data ++ ['\n'])
    (replicate_no_newline n) []
  rw [List.nil_append, byteLen_replicate, if_pos hn] at h
  unfold scan unlines
  simp only [List.foldr_cons, List.foldr_nil]
  have e : (name.data ++ '\n' :: ([] : List Char)) = name.data ++ ['\n'] := rfl
  rw [e, h]

/-- The line `ads.example` ahead of a line of `MaxScanTokenSize` bytes or more: the
scanner delivers the first line only. -/
theorem scan_long_last (n : Nat) (hn : MaxScanTokenSize ≤ n) :
    scan (unlines ["ads.example", ⟨List.replicate n 'a'⟩]) =
      ⟨[("ads.example", none)], some .tooLong⟩ := by
  have h2 := scanAux_line (List.replicate n 'a') [] (replicate_no_newline n) []
  rw [List.nil_append, byteLen_replicate, if_pos hn] at h2
  have h1 := scanAux_line "ads.example".data (List.replicate n 'a' ++ ['\n']) (by decide) []
  have hsmall : ¬ MaxScanTokenSize ≤ byteLen ([] ++ "ads.example".data) := by decide
  rw [if_neg hsmall] at h1
  unfold scan unlines
  simp only [List.foldr_cons, List.foldr_nil]
  have e : (List.replicate n 'a' ++ '\n' :: ([] : List Char)) =
      List.replicate n 'a' ++ ['\n'] := rfl
  rw [e, h1, h2]
  rfl

theorem Parse_stdinEnv (content : String) :
    Parse (stdinEnv content) id [] =
      match parse id (scan content) [] with
      | (some e, _) => .error e
      | (none, hosts) => .ok (sortStrings hosts) := rfl

theorem longLine_too_long : MaxScanTokenSize ≤ 70000 := by decide

theorem scan_longLine_first (name : String) :
    scan (unlines [longLine, name]) = ⟨[], some .tooLong⟩ :=
  scan_long_first 70000 longLine_too_long name

theorem scan_longLine_last :
    scan (unlines ["ads.example", longLine]) = ⟨[("ads.example", none)], some .tooLong⟩ :=
  scan_long_last 70000 longLine_too_long

/-- C2, the code departs from the claim: standard input holds a line of 70000 letters
and then the line `later.example`, a bare hostname that is no IP literal.  The
scanner stops at the long line with `bufio.ErrTooLong`, `parse` returns nil without
reading `Err()`, `Parse` succeeds, and the list handed to the writer is empty:
`later.example` is not in it.  Alone on standard input the same line is listed. -/
theorem bare_hostname_after_long_line_lost :
    ParseIP "later.example" = none ∧
    (∀ c ∈ "later.example".data, IsSpace c = false ∧ c ≠ '#') ∧
    Parse (stdinEnv (unlines ["later.example"])) id [] = .ok ["later.example"] ∧
    Parse (stdinEnv (unlines [longLine, "later.example"])) id [] = .ok [] := by
  refine ⟨by decide, by decide, by rfl, ?_⟩
  rw [Parse_stdinEnv, scan_longLine_first]
  rfl

/-- C9, the code departs from the claim: standard input holds a line of 70000 letters
and the line `ads.example`.  With the long line first the scanner delivers nothing,
with the long line last it delivers `ads.example`; in both orders `parse` returns nil
and `Parse` succeeds, with the lists `[]` and `[ads.example]`. -/
theorem long_line_breaks_order_invariance :
    Parse (stdinEnv (unlines [longLine, "ads.example"])) id [] = .ok [] ∧
    Parse (stdinEnv (unlines ["ads.example", longLine])) id [] = .ok ["ads.example"] := by
  constructor
  · rw [Parse_stdinEnv, scan_longLine_first]
    rfl
  · rw [Parse_stdinEnv, scan_longLine_last]
    rfl

end Generator
